import Mathlib

/-!
Indexed min-priority queue

A shallow embedding of `src/index_pq.hpp` (class `IndexPriorityQueue<T>`).

* The three `std::vector` members are lists; `v.at(i)` with an `int` argument is
  `vecAt` / `vecSet`, which fail exactly when the index, converted to an unsigned
  size, is not below the length (so every negative index fails).
* A member function that mutates the object returns an `Outcome`: either the
  object after a normal return, or the object as it stands at the moment a
  bounds-checked access throws `std::out_of_range`.
* `int` is 32 bits wide.  The products `2*i` and `2*i + 1` of `leftChild` and
  `rightChild` and the constructor's `N + 1` wrap around (`wrapInt`); they are the
  only results that can leave the range, since the constructor accepts no capacity
  above `INT_MAX - 1` and `0 ≤ size_ ≤ capacity` on every reachable object.  The
  theorems about calls that run `sink` carry the bound `capacity < 2^30`, below
  which no product wraps.
* The `while` loops of `swim` and `sink` are run with a fuel that is computed from
  their arguments; `swim_total` and `sink_total` show the fuel never runs out on
  an `int` argument.
-/

namespace IndexPQ

/-! ## Bounds-checked vector access -/

/-- Read `v.at(i)`: `none` stands for the `std::out_of_range` exception. -/
def vecAt {α : Type} (v : List α) (i : Int) : Option α :=
  if 0 ≤ i then v[i.toNat]? else none

/-- Write `v.at(i) = x`: `none` stands for the `std::out_of_range` exception. -/
def vecSet {α : Type} (v : List α) (i : Int) (x : α) : Option (List α) :=
  if 0 ≤ i ∧ i.toNat < v.length then some (v.set i.toNat x) else none

/-! ## Outcomes of member functions -/

/-- Outcome of a mutating member function: normal return with the new object,
an out-of-range exception together with the object as it is when the exception is
thrown, or exhaustion of the loop fuel. -/
inductive Outcome (σ : Type) where
  | ok (s : σ)
  | outOfRange (s : σ)
  | noFuel
  deriving DecidableEq, Repr

/-- Sequencing: continue after a normal return, propagate everything else. -/
def Outcome.bind {σ : Type} (o : Outcome σ) (f : σ → Outcome σ) : Outcome σ :=
  match o with
  | .ok s => f s
  | .outOfRange s => .outOfRange s
  | .noFuel => .noFuel

/-! ## The object state -/

/-- Data members of `IndexPriorityQueue<T>`. -/
structure IndexPriorityQueue (T : Type) where
  priorities : List T
  priorityQueue : List Int
  indexToPosition : List Int
  size_ : Int
  maxSize_ : Int
  deriving DecidableEq, Repr

/-- The value a 32-bit `int` holds after an arithmetic result `x`: two's-complement
wrap-around into `[-2^31, 2^31)`. -/
def wrapInt (x : Int) : Int := (x + 2147483648) % 4294967296 - 2147483648

/-- Helper `leftChild`: `2*i` in `int` arithmetic. -/
def leftChild (i : Int) : Int := wrapInt (2 * i)

/-- Helper `rightChild`: `2*i + 1` in `int` arithmetic. -/
def rightChild (i : Int) : Int := wrapInt (2 * i + 1)

/-- Helper `parent`: C++ integer division truncates toward zero. -/
def parent (i : Int) : Int := Int.tdiv i 2

section Ops

variable {T : Type} [LinearOrder T] [Inhabited T]

/-- The constructor's loop `for (i = 0; i < N; i++) indexToPosition.at(i) = -1`,
with `k` iterations left and loop variable `i`. -/
def ctorLoop (v : List Int) : Nat → Int → Option (List Int)
  | 0, _ => some v
  | k + 1, i => (vecSet v i (-1)).bind fun w => ctorLoop w k (i + 1)

/-- Constructor `IndexPriorityQueue(int N)`.  The argument is an `int`, so values
from `2^31` on are not arguments at all; `none` also when a vector cannot be
allocated: a negative `N`, or `N = INT_MAX`, where `N + 1` wraps to a negative
count. -/
def ctor (N : Int) : Option (IndexPriorityQueue T) :=
  if N < 0 ∨ N ≥ 2147483648 then none
  else if wrapInt (N + 1) < 0 then none
  else
    (ctorLoop (List.replicate N.toNat 0) N.toNat 0).map fun itp =>
      { priorities := List.replicate N.toNat default
        priorityQueue := List.replicate (wrapInt (N + 1)).toNat 0
        indexToPosition := itp
        size_ := 0
        maxSize_ := N }

/-- Member `empty()`. -/
def empty (q : IndexPriorityQueue T) : Bool := q.size_ == 0

/-- Member `size()`. -/
def size (q : IndexPriorityQueue T) : Int := q.size_

/-- Member `contains(index)`; `none` would be an exception of the `.at` read. -/
def contains (q : IndexPriorityQueue T) (index : Int) : Option Bool :=
  if index < 0 ∨ index ≥ q.maxSize_ then some false
  else (vecAt q.indexToPosition index).map fun pos => pos != -1

/-- The expression `priorities.at(priorityQueue.at(j))`. -/
def prioAt (q : IndexPriorityQueue T) (j : Int) : Option T :=
  (vecAt q.priorityQueue j).bind fun idx => vecAt q.priorities idx

/-- Statement `priorities.at(index) = x`. -/
def setPriority (q : IndexPriorityQueue T) (index : Int) (x : T) :
    Outcome (IndexPriorityQueue T) :=
  match vecSet q.priorities index x with
  | some v => .ok { q with priorities := v }
  | none => .outOfRange q

/-- Statement `priorityQueue.at(j) = x`. -/
def setSlot (q : IndexPriorityQueue T) (j : Int) (x : Int) :
    Outcome (IndexPriorityQueue T) :=
  match vecSet q.priorityQueue j x with
  | some v => .ok { q with priorityQueue := v }
  | none => .outOfRange q

/-- Statement `indexToPosition.at(index) = pos`. -/
def setPosition (q : IndexPriorityQueue T) (index : Int) (pos : Int) :
    Outcome (IndexPriorityQueue T) :=
  match vecSet q.indexToPosition index pos with
  | some v => .ok { q with indexToPosition := v }
  | none => .outOfRange q

/-- Statement `indexToPosition.at(priorityQueue.at(j)) = pos`. -/
def setPositionOfSlot (q : IndexPriorityQueue T) (j : Int) (pos : Int) :
    Outcome (IndexPriorityQueue T) :=
  match vecAt q.priorityQueue j with
  | some idx => setPosition q idx pos
  | none => .outOfRange q

/-- Statement `std::swap(priorityQueue.at(a), priorityQueue.at(b))`. -/
def swapSlots (q : IndexPriorityQueue T) (a b : Int) :
    Outcome (IndexPriorityQueue T) :=
  match vecAt q.priorityQueue a, vecAt q.priorityQueue b with
  | some x, some y =>
    .ok { q with priorityQueue := (q.priorityQueue.set a.toNat y).set b.toNat x }
  | _, _ => .outOfRange q

/-- The loop of `swim`, started with loop variable `i`. -/
def swimAux : Nat → IndexPriorityQueue T → Int → Outcome (IndexPriorityQueue T)
  | 0, _, _ => .noFuel
  | n + 1, q, i =>
    let p := parent i
    if p > 0 then
      match prioAt q i, prioAt q p with
      | some a, some b =>
        if a < b then
          (swapSlots q p i).bind fun q1 =>
          (setPositionOfSlot q1 p p).bind fun q2 =>
          (setPositionOfSlot q2 i i).bind fun q3 =>
          swimAux n q3 p
        else .ok q
      | _, _ => .outOfRange q
    else .ok q

/-- Member `swim(i)`. -/
def swim (q : IndexPriorityQueue T) (i : Int) : Outcome (IndexPriorityQueue T) :=
  swimAux (i.toNat + 1) q i

/-- The choice of `swapWith` inside the loop of `sink`. -/
def sinkChoice (q : IndexPriorityQueue T) (current : Int) : Option Int :=
  let left := leftChild current
  let right := rightChild current
  if right ≤ size q then
    match prioAt q left, prioAt q right with
    | some a, some b => some (if a > b then right else left)
    | _, _ => none
  else some left

/-- The loop of `sink`, started with loop variable `current`. -/
def sinkAux : Nat → IndexPriorityQueue T → Int → Outcome (IndexPriorityQueue T)
  | 0, _, _ => .noFuel
  | n + 1, q, current =>
    if leftChild current ≤ size q then
      match sinkChoice q current with
      | none => .outOfRange q
      | some swapWith =>
        match prioAt q current, prioAt q swapWith with
        | some a, some b =>
          if a ≤ b then .ok q
          else
            (swapSlots q current swapWith).bind fun q1 =>
            (setPositionOfSlot q1 current current).bind fun q2 =>
            (setPositionOfSlot q2 swapWith swapWith).bind fun q3 =>
            sinkAux n q3 swapWith
        | _, _ => .outOfRange q
    else .ok q

/-- Member `sink(i)`. -/
def sink (q : IndexPriorityQueue T) (i : Int) : Outcome (IndexPriorityQueue T) :=
  sinkAux ((q.size_ + 1 - i).toNat + 1) q i

/-- Member `push(priority, index)`. -/
def push (q : IndexPriorityQueue T) (priority : T) (index : Int) :
    Outcome (IndexPriorityQueue T) :=
  match contains q index with
  | none => .outOfRange q
  | some true => .ok q
  | some false =>
    let q0 := { q with size_ := q.size_ + 1 }
    (setPriority q0 index priority).bind fun q1 =>
    (setSlot q1 q1.size_ index).bind fun q2 =>
    (setPosition q2 index q2.size_).bind fun q3 =>
    swim q3 q3.size_

/-- Member `pop()`. -/
def pop (q : IndexPriorityQueue T) : Outcome (IndexPriorityQueue T) :=
  if empty q then .ok q
  else
    (swapSlots q 1 q.size_).bind fun q1 =>
    (setPositionOfSlot q1 1 1).bind fun q2 =>
    (setPositionOfSlot q2 q2.size_ q2.size_).bind fun q3 =>
    let q4 := { q3 with size_ := q3.size_ - 1 }
    (sink q4 1).bind fun q5 =>
    (setPositionOfSlot q5 (q5.size_ + 1) (-1)).bind fun q6 =>
    setSlot q6 (q6.size_ + 1) (-1)

/-- Member `erase(index)`. -/
def erase (q : IndexPriorityQueue T) (index : Int) : Outcome (IndexPriorityQueue T) :=
  match contains q index with
  | none => .outOfRange q
  | some false => .ok q
  | some true =>
    match vecAt q.indexToPosition index with
    | none => .outOfRange q
    | some i =>
      (swapSlots q i q.size_).bind fun q1 =>
      (setPositionOfSlot q1 i i).bind fun q2 =>
      (setPositionOfSlot q2 q2.size_ q2.size_).bind fun q3 =>
      let q4 := { q3 with size_ := q3.size_ - 1 }
      (swim q4 i).bind fun q5 =>
      (sink q5 i).bind fun q6 =>
      (setSlot q6 (q6.size_ + 1) (-1)).bind fun q7 =>
      setPosition q7 index (-1)

/-- Member `top()`; `none` would be an exception of an `.at` read. -/
def top (q : IndexPriorityQueue T) : Option (T × Int) :=
  if !empty q then
    match vecAt q.priorityQueue 1 with
    | none => none
    | some idx => (vecAt q.priorities idx).map fun p => (p, idx)
  else some (default, 0)

/-- Member `changeKey(key, index)`. -/
def changeKey (q : IndexPriorityQueue T) (key : T) (index : Int) :
    Outcome (IndexPriorityQueue T) :=
  if index < 0 ∨ index ≥ q.maxSize_ then .ok q
  else
    match contains q index with
    | none => .outOfRange q
    | some true => (erase q index).bind fun q1 => push q1 key index
    | some false => push q key index

/-! ## Total views of the vectors -/

/-- Total read of a vector with a default outside its bounds. -/
def vget {α : Type} (v : List α) (d : α) (i : Int) : α := (vecAt v i).getD d

/-- The index stored in heap slot `j` (`priorityQueue[j]`). -/
def slotIdx (q : IndexPriorityQueue T) (j : Int) : Int := vget q.priorityQueue 0 j

/-- The heap slot recorded for index `x` (`indexToPosition[x]`). -/
def posOf (q : IndexPriorityQueue T) (x : Int) : Int := vget q.indexToPosition 0 x

/-- The priority recorded for index `x` (`priorities[x]`). -/
def prioOf (q : IndexPriorityQueue T) (x : Int) : T := vget q.priorities default x

/-- The priority of the index in heap slot `j` (`priorities[priorityQueue[j]]`). -/
def key (q : IndexPriorityQueue T) (j : Int) : T := prioOf q (slotIdx q j)

/-- The object with `priorityQueue[j]` overwritten. -/
def withSlot (q : IndexPriorityQueue T) (j x : Int) : IndexPriorityQueue T :=
  { q with priorityQueue := q.priorityQueue.set j.toNat x }

/-- The object with `indexToPosition[x]` overwritten. -/
def withPos (q : IndexPriorityQueue T) (x pos : Int) : IndexPriorityQueue T :=
  { q with indexToPosition := q.indexToPosition.set x.toNat pos }

/-- The object with `priorities[x]` overwritten. -/
def withPrio (q : IndexPriorityQueue T) (x : Int) (p : T) : IndexPriorityQueue T :=
  { q with priorities := q.priorities.set x.toNat p }

/-- The object with `size_` replaced. -/
def withSize (q : IndexPriorityQueue T) (n : Int) : IndexPriorityQueue T :=
  { q with size_ := n }

/-- The object after swapping heap slots `a` and `b` and refreshing the position
entries of both indices, as `swim`, `sink`, `pop` and `erase` do. -/
def swapped (q : IndexPriorityQueue T) (a b : Int) : IndexPriorityQueue T :=
  withPos (withPos (withSlot (withSlot q a (slotIdx q b)) b (slotIdx q a))
    (slotIdx q b) a) (slotIdx q a) b

/-- The object `push` hands to `swim`: size incremented, the priority recorded, the
index appended at the new last slot and its position recorded. -/
def pushed (q : IndexPriorityQueue T) (p : T) (idx : Int) : IndexPriorityQueue T :=
  withPos (withSlot (withPrio (withSize q (q.size_ + 1)) idx p) (q.size_ + 1) idx)
    idx (q.size_ + 1)

/-! ## Invariants -/

/-- The vectors have the sizes the constructor gave them. -/
structure Shape (q : IndexPriorityQueue T) : Prop where
  cap : 0 ≤ q.maxSize_
  lenP : (q.priorities.length : Int) = q.maxSize_
  lenQ : (q.priorityQueue.length : Int) = q.maxSize_ + 1
  lenI : (q.indexToPosition.length : Int) = q.maxSize_

/-- Heap slots `1..n` and the indices with a position other than `-1` are in
bijection through `priorityQueue` and `indexToPosition`. -/
structure Bij (q : IndexPriorityQueue T) (n : Int) : Prop where
  nonneg : 0 ≤ n
  le_cap : n ≤ q.maxSize_
  slot : ∀ j, 1 ≤ j → j ≤ n →
    0 ≤ slotIdx q j ∧ slotIdx q j < q.maxSize_ ∧ posOf q (slotIdx q j) = j
  pos : ∀ x, 0 ≤ x → x < q.maxSize_ → posOf q x ≠ -1 →
    1 ≤ posOf q x ∧ posOf q x ≤ n ∧ slotIdx q (posOf q x) = x

/-- Min-heap order over the occupied slots. -/
def HeapOrd (q : IndexPriorityQueue T) : Prop :=
  ∀ j, 1 < j → j ≤ q.size_ → key q (j / 2) ≤ key q j

/-- Heap order everywhere except between slot `i` and its parent; the children of
`i` are already above the parent of `i`. -/
def UpOK (q : IndexPriorityQueue T) (i : Int) : Prop :=
  (∀ j, 1 < j → j ≤ q.size_ → j ≠ i → key q (j / 2) ≤ key q j) ∧
  (∀ c, 1 < i → c ≤ q.size_ → c / 2 = i → key q (i / 2) ≤ key q c)

/-- Heap order everywhere except between slot `i` and its children; the children
of `i` are already above the parent of `i`. -/
def DownOK (q : IndexPriorityQueue T) (i : Int) : Prop :=
  (∀ j, 1 < j → j ≤ q.size_ → j / 2 ≠ i → key q (j / 2) ≤ key q j) ∧
  (∀ c, 1 < i → c ≤ q.size_ → c / 2 = i → key q (i / 2) ≤ key q c)

/-- The representation invariant of the class; the capacity is one the
constructor accepts. -/
structure Inv (q : IndexPriorityQueue T) : Prop where
  shape : Shape q
  bij : Bij q q.size_
  heap : HeapOrd q
  capInt : q.maxSize_ < 2147483647

/-- What `swim` and `sink` leave alone: the priorities, the size, the capacity,
and which indices have a position. -/
structure Frame (q q' : IndexPriorityQueue T) : Prop where
  prios : q'.priorities = q.priorities
  size_eq : q'.size_ = q.size_
  cap_eq : q'.maxSize_ = q.maxSize_
  absent : ∀ x, posOf q' x = -1 ↔ posOf q x = -1

/-! ## Reachable states -/

/-- States reachable from construction by `push` (index in range), `pop`,
`erase` and `changeKey` calls that return normally. -/
inductive Reachable : IndexPriorityQueue T → Prop where
  | ctor (N : Int) (q : IndexPriorityQueue T) : ctor N = some q → Reachable q
  | push (q q' : IndexPriorityQueue T) (p : T) (idx : Int) :
      Reachable q → 0 ≤ idx → idx < q.maxSize_ → push q p idx = .ok q' → Reachable q'
  | pop (q q' : IndexPriorityQueue T) : Reachable q → pop q = .ok q' → Reachable q'
  | erase (q q' : IndexPriorityQueue T) (idx : Int) :
      Reachable q → erase q idx = .ok q' → Reachable q'
  | changeKey (q q' : IndexPriorityQueue T) (k : T) (idx : Int) :
      Reachable q → changeKey q k idx = .ok q' → Reachable q'

/-- The log of assignments after `push(p, idx)`: a push of an index that is
already queued assigns nothing. -/
def logPush (q : IndexPriorityQueue T) (g : Int → Option T) (p : T) (idx : Int) :
    Int → Option T :=
  if contains q idx = some false then Function.update g idx (some p) else g

/-- The log of assignments after `changeKey(k, idx)`: an index out of range is
ignored. -/
def logChangeKey (q : IndexPriorityQueue T) (g : Int → Option T) (k : T) (idx : Int) :
    Int → Option T :=
  if idx < 0 ∨ idx ≥ q.maxSize_ then g else Function.update g idx (some k)

/-- Reachable states together with the log `g` of the priority most recently
assigned to each index by the calls made so far. -/
inductive ReachableLog : IndexPriorityQueue T → (Int → Option T) → Prop where
  | ctor (N : Int) (q : IndexPriorityQueue T) :
      ctor N = some q → ReachableLog q (fun _ => none)
  | push (q q' : IndexPriorityQueue T) (g : Int → Option T) (p : T) (idx : Int) :
      ReachableLog q g → 0 ≤ idx → idx < q.maxSize_ → push q p idx = .ok q' →
      ReachableLog q' (logPush q g p idx)
  | pop (q q' : IndexPriorityQueue T) (g : Int → Option T) :
      ReachableLog q g → pop q = .ok q' → ReachableLog q' g
  | erase (q q' : IndexPriorityQueue T) (g : Int → Option T) (idx : Int) :
      ReachableLog q g → erase q idx = .ok q' → ReachableLog q' g
  | changeKey (q q' : IndexPriorityQueue T) (g : Int → Option T) (k : T) (idx : Int) :
      ReachableLog q g → changeKey q k idx = .ok q' →
      ReachableLog q' (logChangeKey q g k idx)

/-- The spec's reading of `changeKey` on a queued index: `erase(idx)` followed by
`push(key, idx)`. -/
def eraseThenPush (q : IndexPriorityQueue T) (key : T) (index : Int) :
    Outcome (IndexPriorityQueue T) :=
  (erase q index).bind fun q1 => push q1 key index

/-- The first half of `erase(index)` once slot `i` of the index has been read: the
swap with the last slot, the two position refreshes and the decrement of `size_`. -/
def eraseMid (q : IndexPriorityQueue T) (i : Int) : Outcome (IndexPriorityQueue T) :=
  (swapSlots q i q.size_).bind fun q1 =>
  (setPositionOfSlot q1 i i).bind fun q2 =>
  (setPositionOfSlot q2 q2.size_ q2.size_).bind fun q3 =>
  .ok { q3 with size_ := q3.size_ - 1 }

/-- The second half of `erase(index)`: `swim(i)`, `sink(i)` and the two clearing
writes. -/
def eraseRest (q : IndexPriorityQueue T) (i index : Int) : Outcome (IndexPriorityQueue T) :=
  (swim q i).bind fun q5 =>
  (sink q5 i).bind fun q6 =>
  (setSlot q6 (q6.size_ + 1) (-1)).bind fun q7 =>
  setPosition q7 index (-1)

/-- Exactly one of `swim(i)` and `sink(i)`, run in this order on `q`, changes the
heap array, and the other leaves it as it is. -/
def ExactlyOneWorks (q : IndexPriorityQueue T) (i : Int) : Prop :=
  ∃ q5 q6, swim q i = .ok q5 ∧ sink q5 i = .ok q6 ∧
    ((q5.priorityQueue ≠ q.priorityQueue ∧ q6.priorityQueue = q5.priorityQueue) ∨
     (q5.priorityQueue = q.priorityQueue ∧ q6.priorityQueue ≠ q5.priorityQueue))

/-- A property of the object a member function leaves behind, whether it returned
or threw. -/
def Outcome.All {σ : Type} (P : σ → Prop) : Outcome σ → Prop
  | .ok s => P s
  | .outOfRange s => P s
  | .noFuel => True

/-- The object a member function leaves behind, whether it returned or threw. -/
def Outcome.leaves {σ : Type} (o : Outcome σ) (s : σ) : Prop :=
  o = .ok s ∨ o = .outOfRange s

/-- Every state an object can be in: constructed, then any calls with any
arguments, including calls that threw `std::out_of_range`. -/
inductive Attainable : IndexPriorityQueue T → Prop where
  | ctor (N : Int) (q : IndexPriorityQueue T) : ctor N = some q → Attainable q
  | push (q q' : IndexPriorityQueue T) (p : T) (idx : Int) :
      Attainable q → (push q p idx).leaves q' → Attainable q'
  | pop (q q' : IndexPriorityQueue T) : Attainable q → (pop q).leaves q' → Attainable q'
  | erase (q q' : IndexPriorityQueue T) (idx : Int) :
      Attainable q → (erase q idx).leaves q' → Attainable q'
  | changeKey (q q' : IndexPriorityQueue T) (k : T) (idx : Int) :
      Attainable q → (changeKey q k idx).leaves q' → Attainable q'

end Ops

/-! ## A concrete run (capacity 5, integer priorities) -/

/-- The freshly constructed queue of capacity 5. -/
def demo0 : IndexPriorityQueue Int :=
  ⟨[0, 0, 0, 0, 0], [0, 0, 0, 0, 0, 0], [-1, -1, -1, -1, -1], 0, 5⟩

/-- After `push(10, 0)`. -/
def demo1 : IndexPriorityQueue Int :=
  ⟨[10, 0, 0, 0, 0], [0, 0, 0, 0, 0, 0], [1, -1, -1, -1, -1], 1, 5⟩

/-- After `push(3, 1)`. -/
def demo2 : IndexPriorityQueue Int :=
  ⟨[10, 3, 0, 0, 0], [0, 1, 0, 0, 0, 0], [2, 1, -1, -1, -1], 2, 5⟩

/-- After `push(7, 2)`. -/
def demo3 : IndexPriorityQueue Int :=
  ⟨[10, 3, 7, 0, 0], [0, 1, 0, 2, 0, 0], [2, 1, 3, -1, -1], 3, 5⟩

/-- After `changeKey(1, 2)`. -/
def demo4 : IndexPriorityQueue Int :=
  ⟨[10, 3, 1, 0, 0], [0, 2, 0, 1, 0, 0], [2, 3, 1, -1, -1], 3, 5⟩

/-- After `pop()`. -/
def demo5 : IndexPriorityQueue Int :=
  ⟨[10, 3, 1, 0, 0], [0, 1, 0, -1, 0, 0], [2, 1, -1, -1, -1], 2, 5⟩

/-- After `erase(0)`. -/
def demo6 : IndexPriorityQueue Int :=
  ⟨[10, 3, 1, 0, 0], [0, 1, -1, -1, 0, 0], [-1, 1, -1, -1, -1], 1, 5⟩

/-- After the last `pop()`. -/
def demo7 : IndexPriorityQueue Int :=
  ⟨[10, 3, 1, 0, 0], [0, -1, -1, -1, 0, 0], [-1, -1, -1, -1, -1], 0, 5⟩

/-- The assignment log of the run up to `demo3`. -/
def demoLog3 : Int → Option Int :=
  logPush demo2 (logPush demo1 (logPush demo0 (fun _ => none) 10 0) 3 1) 7 2

/-- The object `erase(0)` hands to `swim` and `sink` on `demo5`: index 0 sits in
the last slot, so only `size_` has changed. -/
def demoMid : IndexPriorityQueue Int :=
  ⟨[10, 3, 1, 0, 0], [0, 1, 0, -1, 0, 0], [2, 1, -1, -1, -1], 1, 5⟩

/-- The object at the moment `push(10, 7)` throws on `demo0`. -/
def demoFailed : IndexPriorityQueue Int :=
  ⟨[0, 0, 0, 0, 0], [0, 0, 0, 0, 0, 0], [-1, -1, -1, -1, -1], 1, 5⟩

/-! ## Vector access lemmas -/

section Lemmas

set_option linter.unusedSectionVars false
set_option linter.unreachableTactic false
set_option linter.unusedTactic false
set_option linter.unnecessarySeqFocus false

variable {T : Type} [LinearOrder T] [Inhabited T]

theorem vecAt_of_lt {α : Type} {v : List α} {i : Int} (d : α) (h0 : 0 ≤ i)
    (h1 : i < v.length) : vecAt v i = some (vget v d i) := by
  have h2 : i.toNat < v.length := by omega
  simp [vecAt, vget, h0, List.getElem?_eq_getElem h2]

theorem vecAt_eq_none {α : Type} {v : List α} {i : Int}
    (h : i < 0 ∨ (v.length : Int) ≤ i) : vecAt v i = none := by
  unfold vecAt
  split_ifs with h0
  · have h2 : v.length ≤ i.toNat := by omega
    simp [List.getElem?_eq_none h2]
  · rfl

theorem vecSet_of_lt {α : Type} {v : List α} {i : Int} (x : α) (h0 : 0 ≤ i)
    (h1 : i < v.length) : vecSet v i x = some (v.set i.toNat x) := by
  have h2 : i.toNat < v.length := by omega
  simp [vecSet, h0, h2]

theorem vget_set {α : Type} {v : List α} {i : Int} (d x : α) (j : Int) (h0 : 0 ≤ i)
    (h1 : i < v.length) : vget (v.set i.toNat x) d j = if j = i then x else vget v d j := by
  have h2 : i.toNat < v.length := by omega
  unfold vget vecAt
  by_cases hj : 0 ≤ j
  · by_cases hij : j = i
    · subst hij
      simp [hj, List.getElem?_set, h2]
    · have hne : ¬ i.toNat = j.toNat := by omega
      simp [hj, hij, List.getElem?_set, hne]
  · have hij : ¬ j = i := by omega
    simp [hj, hij]

/-! ## Views of updated objects -/

theorem slotIdx_withSlot (q : IndexPriorityQueue T) (j x k : Int) (h0 : 0 ≤ j)
    (h1 : j < q.priorityQueue.length) :
    slotIdx (withSlot q j x) k = if k = j then x else slotIdx q k := by
  simp only [slotIdx, withSlot]
  exact vget_set 0 x k h0 h1

theorem posOf_withPos (q : IndexPriorityQueue T) (x v y : Int) (h0 : 0 ≤ x)
    (h1 : x < q.indexToPosition.length) :
    posOf (withPos q x v) y = if y = x then v else posOf q y := by
  simp only [posOf, withPos]
  exact vget_set 0 v y h0 h1

theorem prioOf_withPrio (q : IndexPriorityQueue T) (x : Int) (p : T) (y : Int) (h0 : 0 ≤ x)
    (h1 : x < q.priorities.length) :
    prioOf (withPrio q x p) y = if y = x then p else prioOf q y := by
  simp only [prioOf, withPrio]
  exact vget_set default p y h0 h1

@[simp] theorem slotIdx_withPos (q : IndexPriorityQueue T) (x v k : Int) :
    slotIdx (withPos q x v) k = slotIdx q k := rfl

@[simp] theorem slotIdx_withPrio (q : IndexPriorityQueue T) (x : Int) (p : T) (k : Int) :
    slotIdx (withPrio q x p) k = slotIdx q k := rfl

@[simp] theorem posOf_withSlot (q : IndexPriorityQueue T) (j x y : Int) :
    posOf (withSlot q j x) y = posOf q y := rfl

@[simp] theorem posOf_withPrio (q : IndexPriorityQueue T) (x : Int) (p : T) (y : Int) :
    posOf (withPrio q x p) y = posOf q y := rfl

@[simp] theorem prioOf_withSlot (q : IndexPriorityQueue T) (j x y : Int) :
    prioOf (withSlot q j x) y = prioOf q y := rfl

@[simp] theorem prioOf_withPos (q : IndexPriorityQueue T) (x v y : Int) :
    prioOf (withPos q x v) y = prioOf q y := rfl

@[simp] theorem prioOf_withSize (q : IndexPriorityQueue T) (n y : Int) :
    prioOf (withSize q n) y = prioOf q y := rfl

theorem Shape.keep_withSlot {q : IndexPriorityQueue T} (h : Shape q) (j x : Int) :
    Shape (withSlot q j x) :=
  ⟨h.cap, h.lenP, by simpa [IndexPQ.withSlot] using h.lenQ, h.lenI⟩

theorem Shape.keep_withPos {q : IndexPriorityQueue T} (h : Shape q) (x v : Int) :
    Shape (withPos q x v) :=
  ⟨h.cap, h.lenP, h.lenQ, by simpa [IndexPQ.withPos] using h.lenI⟩

theorem Shape.keep_withPrio {q : IndexPriorityQueue T} (h : Shape q) (x : Int) (p : T) :
    Shape (withPrio q x p) :=
  ⟨h.cap, by simpa [IndexPQ.withPrio] using h.lenP, h.lenQ, h.lenI⟩

theorem Shape.keep_withSize {q : IndexPriorityQueue T} (h : Shape q) (n : Int) :
    Shape (withSize q n) :=
  ⟨h.cap, h.lenP, h.lenQ, h.lenI⟩

/-! ## Single statements on in-range arguments -/

theorem setSlot_ok (q : IndexPriorityQueue T) (j x : Int) (h0 : 0 ≤ j)
    (h1 : j < q.priorityQueue.length) : setSlot q j x = .ok (withSlot q j x) := by
  simp [setSlot, vecSet_of_lt x h0 h1, withSlot]

theorem setPosition_ok (q : IndexPriorityQueue T) (x v : Int) (h0 : 0 ≤ x)
    (h1 : x < q.indexToPosition.length) : setPosition q x v = .ok (withPos q x v) := by
  simp [setPosition, vecSet_of_lt v h0 h1, withPos]

theorem setPriority_ok (q : IndexPriorityQueue T) (x : Int) (p : T) (h0 : 0 ≤ x)
    (h1 : x < q.priorities.length) : setPriority q x p = .ok (withPrio q x p) := by
  simp [setPriority, vecSet_of_lt p h0 h1, withPrio]

theorem vecAt_slot (q : IndexPriorityQueue T) (j : Int) (h0 : 0 ≤ j)
    (h1 : j < q.priorityQueue.length) : vecAt q.priorityQueue j = some (slotIdx q j) :=
  vecAt_of_lt 0 h0 h1

theorem vecAt_pos (q : IndexPriorityQueue T) (x : Int) (h0 : 0 ≤ x)
    (h1 : x < q.indexToPosition.length) : vecAt q.indexToPosition x = some (posOf q x) :=
  vecAt_of_lt 0 h0 h1

theorem vecAt_prio (q : IndexPriorityQueue T) (x : Int) (h0 : 0 ≤ x)
    (h1 : x < q.priorities.length) : vecAt q.priorities x = some (prioOf q x) :=
  vecAt_of_lt default h0 h1

theorem setPositionOfSlot_ok (q : IndexPriorityQueue T) (j v : Int) (h0 : 0 ≤ j)
    (h1 : j < q.priorityQueue.length) (h2 : 0 ≤ slotIdx q j)
    (h3 : slotIdx q j < q.indexToPosition.length) :
    setPositionOfSlot q j v = .ok (withPos q (slotIdx q j) v) := by
  simp [setPositionOfSlot, vecAt_slot q j h0 h1, setPosition_ok q _ v h2 h3]

theorem swapSlots_ok (q : IndexPriorityQueue T) (a b : Int) (ha0 : 0 ≤ a)
    (ha1 : a < q.priorityQueue.length) (hb0 : 0 ≤ b) (hb1 : b < q.priorityQueue.length) :
    swapSlots q a b = .ok (withSlot (withSlot q a (slotIdx q b)) b (slotIdx q a)) := by
  simp [swapSlots, vecAt_slot q a ha0 ha1, vecAt_slot q b hb0 hb1, withSlot]

theorem prioAt_ok (q : IndexPriorityQueue T) (j : Int) (h0 : 0 ≤ j)
    (h1 : j < q.priorityQueue.length) (h2 : 0 ≤ slotIdx q j)
    (h3 : slotIdx q j < q.priorities.length) : prioAt q j = some (key q j) := by
  simp [prioAt, vecAt_slot q j h0 h1, vecAt_prio q _ h2 h3, key]

/-! ## The swap step -/

theorem slotIdx_swapped (q : IndexPriorityQueue T) (a b k : Int) (ha0 : 0 ≤ a)
    (ha1 : a < q.priorityQueue.length) (hb0 : 0 ≤ b) (hb1 : b < q.priorityQueue.length) :
    slotIdx (swapped q a b) k =
      if k = b then slotIdx q a else if k = a then slotIdx q b else slotIdx q k := by
  have hb1' : b < (withSlot q a (slotIdx q b)).priorityQueue.length := by
    simpa [withSlot] using hb1
  simp only [swapped, slotIdx_withPos]
  rw [slotIdx_withSlot _ _ _ _ hb0 hb1', slotIdx_withSlot _ _ _ _ ha0 ha1]

theorem posOf_swapped (q : IndexPriorityQueue T) (a b x : Int)
    (ha0 : 0 ≤ slotIdx q a) (ha1 : slotIdx q a < q.indexToPosition.length)
    (hb0 : 0 ≤ slotIdx q b) (hb1 : slotIdx q b < q.indexToPosition.length) :
    posOf (swapped q a b) x =
      if x = slotIdx q a then b else if x = slotIdx q b then a else posOf q x := by
  have h1 : slotIdx q a <
      (withPos (withSlot (withSlot q a (slotIdx q b)) b (slotIdx q a))
        (slotIdx q b) a).indexToPosition.length := by
    simpa [withPos, withSlot] using ha1
  have h2 : slotIdx q b <
      (withSlot (withSlot q a (slotIdx q b)) b (slotIdx q a)).indexToPosition.length := by
    simpa [withSlot] using hb1
  simp only [swapped]
  rw [posOf_withPos _ _ _ _ ha0 h1, posOf_withPos _ _ _ _ hb0 h2]
  simp

@[simp] theorem prioOf_swapped (q : IndexPriorityQueue T) (a b x : Int) :
    prioOf (swapped q a b) x = prioOf q x := rfl

@[simp] theorem swapped_priorities (q : IndexPriorityQueue T) (a b : Int) :
    (swapped q a b).priorities = q.priorities := rfl

@[simp] theorem swapped_size (q : IndexPriorityQueue T) (a b : Int) :
    (swapped q a b).size_ = q.size_ := rfl

@[simp] theorem swapped_maxSize (q : IndexPriorityQueue T) (a b : Int) :
    (swapped q a b).maxSize_ = q.maxSize_ := rfl

theorem Shape.keep_swapped {q : IndexPriorityQueue T} (h : Shape q) (a b : Int) :
    Shape (swapped q a b) :=
  (((h.keep_withSlot _ _).keep_withSlot _ _).keep_withPos _ _).keep_withPos _ _

/-- Running the swap and the two position refreshes on occupied slots. -/
theorem swap_exec {q : IndexPriorityQueue T} {m : Int} (hs : Shape q) (hb : Bij q m)
    (a b : Int) (ha0 : 1 ≤ a) (ha1 : a ≤ m) (hb0 : 1 ≤ b) (hb1 : b ≤ m)
    (f : IndexPriorityQueue T → Outcome (IndexPriorityQueue T)) :
    ((swapSlots q a b).bind fun q1 =>
      (setPositionOfSlot q1 a a).bind fun q2 =>
      (setPositionOfSlot q2 b b).bind f) = f (swapped q a b) := by
  have hcap := hb.le_cap
  have hlq := hs.lenQ
  have hli := hs.lenI
  obtain ⟨sa0, sa1, -⟩ := hb.slot a ha0 ha1
  obtain ⟨sb0, sb1, -⟩ := hb.slot b hb0 hb1
  have la : a < q.priorityQueue.length := by omega
  have lb : b < q.priorityQueue.length := by omega
  rw [swapSlots_ok q a b (by omega) la (by omega) lb]
  simp only [Outcome.bind]
  have e1 : slotIdx (withSlot (withSlot q a (slotIdx q b)) b (slotIdx q a)) a = slotIdx q b := by
    rw [slotIdx_withSlot _ _ _ _ (by omega) (by simpa [withSlot] using lb),
      slotIdx_withSlot _ _ _ _ (by omega) la]
    by_cases hab : a = b
    · simp [hab]
    · simp [hab]
  rw [setPositionOfSlot_ok _ a a (by omega) (by simpa [withSlot] using la)
    (by rw [e1]; exact sb0) (by rw [e1]; simp only [withSlot]; omega)]
  simp only [Outcome.bind]
  have e2 : slotIdx (withPos (withSlot (withSlot q a (slotIdx q b)) b (slotIdx q a))
      (slotIdx (withSlot (withSlot q a (slotIdx q b)) b (slotIdx q a)) a) a) b = slotIdx q a := by
    rw [slotIdx_withPos, slotIdx_withSlot _ _ _ _ (by omega) (by simpa [withSlot] using lb)]
    simp
  rw [setPositionOfSlot_ok _ b b (by omega) (by simpa [withSlot, withPos] using lb)
    (by rw [e2]; exact sa0) (by rw [e2]; simp only [withSlot, withPos, List.length_set]; omega)]
  simp only [Outcome.bind]
  rw [e2, e1]
  rfl

theorem Bij.slot_inj {q : IndexPriorityQueue T} {m : Int} (hb : Bij q m) {a b : Int}
    (ha0 : 1 ≤ a) (ha1 : a ≤ m) (hb0 : 1 ≤ b) (hb1 : b ≤ m)
    (h : slotIdx q a = slotIdx q b) : a = b := by
  have h1 := (hb.slot a ha0 ha1).2.2
  have h2 := (hb.slot b hb0 hb1).2.2
  rw [h] at h1
  omega

/-- Views of the swap step on occupied slots. -/
theorem swapped_views {q : IndexPriorityQueue T} {m : Int} (hs : Shape q) (hb : Bij q m)
    (a b : Int) (ha0 : 1 ≤ a) (ha1 : a ≤ m) (hb0 : 1 ≤ b) (hb1 : b ≤ m) :
    (∀ k, slotIdx (swapped q a b) k =
      if k = b then slotIdx q a else if k = a then slotIdx q b else slotIdx q k) ∧
    (∀ x, posOf (swapped q a b) x =
      if x = slotIdx q a then b else if x = slotIdx q b then a else posOf q x) := by
  have hcap := hb.le_cap
  have hlq := hs.lenQ
  have hli := hs.lenI
  obtain ⟨sa0, sa1, -⟩ := hb.slot a ha0 ha1
  obtain ⟨sb0, sb1, -⟩ := hb.slot b hb0 hb1
  exact ⟨fun k => slotIdx_swapped q a b k (by omega) (by omega) (by omega) (by omega),
    fun x => posOf_swapped q a b x sa0 (by omega) sb0 (by omega)⟩

theorem key_swapped {q : IndexPriorityQueue T} {m : Int} (hs : Shape q) (hb : Bij q m)
    (a b : Int) (ha0 : 1 ≤ a) (ha1 : a ≤ m) (hb0 : 1 ≤ b) (hb1 : b ≤ m) (k : Int) :
    key (swapped q a b) k = if k = b then key q a else if k = a then key q b else key q k := by
  have h := (swapped_views hs hb a b ha0 ha1 hb0 hb1).1 k
  simp only [key, prioOf_swapped, h]
  split_ifs <;> rfl

theorem Bij.keep_swap {q : IndexPriorityQueue T} {m : Int} (hs : Shape q) (hb : Bij q m)
    (a b : Int) (ha0 : 1 ≤ a) (ha1 : a ≤ m) (hb0 : 1 ≤ b) (hb1 : b ≤ m) :
    Bij (swapped q a b) m := by
  obtain ⟨hsl, hps⟩ := swapped_views hs hb a b ha0 ha1 hb0 hb1
  obtain ⟨sa0, sa1, sa2⟩ := hb.slot a ha0 ha1
  obtain ⟨sb0, sb1, sb2⟩ := hb.slot b hb0 hb1
  refine ⟨hb.nonneg, hb.le_cap, ?_, ?_⟩
  · intro j hj0 hj1
    obtain ⟨sj0, sj1, sj2⟩ := hb.slot j hj0 hj1
    rw [hsl j, swapped_maxSize]
    by_cases hjb : j = b
    · rw [if_pos hjb, hps, if_pos rfl]
      exact ⟨sa0, sa1, hjb.symm⟩
    · rw [if_neg hjb]
      by_cases hja : j = a
      · have hne : ¬ slotIdx q b = slotIdx q a := fun h =>
          hjb (hja.trans (hb.slot_inj hb0 hb1 ha0 ha1 h).symm)
        rw [if_pos hja, hps, if_neg hne, if_pos rfl]
        exact ⟨sb0, sb1, hja.symm⟩
      · have hne1 : ¬ slotIdx q j = slotIdx q a := fun h =>
          hja (hb.slot_inj hj0 hj1 ha0 ha1 h)
        have hne2 : ¬ slotIdx q j = slotIdx q b := fun h =>
          hjb (hb.slot_inj hj0 hj1 hb0 hb1 h)
        rw [if_neg hja, hps, if_neg hne1, if_neg hne2]
        exact ⟨sj0, sj1, sj2⟩
  · intro x hx0 hx1 hx
    rw [swapped_maxSize] at hx1
    rw [hps] at hx ⊢
    by_cases hxa : x = slotIdx q a
    · rw [if_pos hxa, hsl, if_pos rfl]
      exact ⟨hb0, hb1, hxa.symm⟩
    · rw [if_neg hxa] at hx ⊢
      by_cases hxb : x = slotIdx q b
      · have hab : ¬ a = b := fun h => hxa (by rw [hxb, h])
        rw [if_pos hxb, hsl, if_neg hab, if_pos rfl]
        exact ⟨ha0, ha1, hxb.symm⟩
      · rw [if_neg hxb] at hx ⊢
        obtain ⟨p0, p1, p2⟩ := hb.pos x hx0 hx1 hx
        have hne1 : ¬ posOf q x = b := fun h => hxb (by rw [← p2, h])
        have hne2 : ¬ posOf q x = a := fun h => hxa (by rw [← p2, h])
        rw [hsl, if_neg hne1, if_neg hne2]
        exact ⟨p0, p1, p2⟩

theorem Frame.refl (q : IndexPriorityQueue T) : Frame q q :=
  ⟨rfl, rfl, rfl, fun _ => Iff.rfl⟩

theorem Frame.trans {q1 q2 q3 : IndexPriorityQueue T} (h1 : Frame q1 q2) (h2 : Frame q2 q3) :
    Frame q1 q3 :=
  ⟨h2.prios.trans h1.prios, h2.size_eq.trans h1.size_eq, h2.cap_eq.trans h1.cap_eq,
    fun x => (h2.absent x).trans (h1.absent x)⟩

theorem Frame.of_swap {q : IndexPriorityQueue T} {m : Int} (hs : Shape q) (hb : Bij q m)
    (a b : Int) (ha0 : 1 ≤ a) (ha1 : a ≤ m) (hb0 : 1 ≤ b) (hb1 : b ≤ m) :
    Frame q (swapped q a b) := by
  obtain ⟨-, hps⟩ := swapped_views hs hb a b ha0 ha1 hb0 hb1
  obtain ⟨sa0, sa1, sa2⟩ := hb.slot a ha0 ha1
  obtain ⟨sb0, sb1, sb2⟩ := hb.slot b hb0 hb1
  refine ⟨rfl, rfl, rfl, fun x => ?_⟩
  rw [hps]
  split_ifs with h1 h2
  · subst h1
    omega
  · subst h2
    omega
  · exact Iff.rfl

theorem Frame.prioOf {q q' : IndexPriorityQueue T} (h : Frame q q') (x : Int) :
    prioOf q' x = prioOf q x := by
  simp only [IndexPQ.prioOf, h.prios]

/-! ## The loop of `swim` -/

theorem parent_eq {i : Int} (h : 0 ≤ i) : parent i = i / 2 :=
  Int.tdiv_eq_ediv h (by decide)

/-! ## 32-bit arithmetic -/

theorem wrapInt_eq {x : Int} (h0 : -2147483648 ≤ x) (h1 : x < 2147483648) :
    wrapInt x = x := by
  unfold wrapInt
  omega

theorem wrapInt_over {x : Int} (h0 : 2147483648 ≤ x) (h1 : x < 4294967296) :
    wrapInt x = x - 4294967296 := by
  unfold wrapInt
  omega

/-- At slot `2^30` the products wrap to `INT_MIN` and `INT_MIN + 1`. -/
theorem children_wrap :
    leftChild 1073741824 = -2147483648 ∧ rightChild 1073741824 = -2147483647 := by
  decide

/-- The constructor rejects `INT_MAX`, negative sizes and values that are no `int`. -/
theorem ctor_rejects :
    (ctor 2147483647 : Option (IndexPriorityQueue Int)) = none ∧
    (ctor (-1) : Option (IndexPriorityQueue Int)) = none ∧
    (ctor 2147483648 : Option (IndexPriorityQueue Int)) = none := by
  decide

theorem leftChild_eq {i : Int} (h0 : 0 ≤ i) (h1 : i < 1073741824) : leftChild i = 2 * i :=
  wrapInt_eq (by omega) (by omega)

theorem rightChild_eq {i : Int} (h0 : 0 ≤ i) (h1 : i < 1073741824) :
    rightChild i = 2 * i + 1 :=
  wrapInt_eq (by omega) (by omega)

theorem leftChild_neg {i : Int} (h0 : 1073741824 ≤ i) (h1 : i < 2147483647) :
    leftChild i < 0 := by
  unfold leftChild
  rw [wrapInt_over (by omega) (by omega)]
  omega

theorem rightChild_neg {i : Int} (h0 : 1073741824 ≤ i) (h1 : i < 2147483647) :
    rightChild i < 0 := by
  unfold rightChild
  rw [wrapInt_over (by omega) (by omega)]
  omega

theorem upOK_swapped {q : IndexPriorityQueue T} {m : Int} (hs : Shape q) (hb : Bij q m)
    (hsz : q.size_ ≤ m) {i : Int} (hi0 : 2 ≤ i) (hi1 : i ≤ q.size_) (hu : UpOK q i)
    (hlt : key q i < key q (i / 2)) : UpOK (swapped q (i / 2) i) (i / 2) := by
  have hk := key_swapped hs hb (i / 2) i (by omega) (by omega) (by omega) (by omega)
  constructor
  · intro j hj0 hj1 hjp
    rw [swapped_size] at hj1
    by_cases hji : j = i
    · have e1 : key (swapped q (i / 2) i) j = key q (i / 2) := by
        rw [hk]; split_ifs <;> first | rfl | omega
      have e2 : key (swapped q (i / 2) i) (j / 2) = key q i := by
        rw [hk]; split_ifs <;> first | rfl | omega
      rw [e1, e2]
      exact le_of_lt hlt
    · have e1 : key (swapped q (i / 2) i) j = key q j := by
        rw [hk]; split_ifs <;> first | rfl | omega
      rw [e1]
      by_cases hc : j / 2 = i
      · have e2 : key (swapped q (i / 2) i) (j / 2) = key q (i / 2) := by
          rw [hk]; split_ifs <;> first | rfl | omega
        rw [e2]
        exact hu.2 j (by omega) hj1 hc
      · by_cases hsib : j / 2 = i / 2
        · have e2 : key (swapped q (i / 2) i) (j / 2) = key q i := by
            rw [hk]; split_ifs <;> first | rfl | omega
          rw [e2]
          have h1 := hu.1 j hj0 hj1 hji
          rw [hsib] at h1
          exact le_trans (le_of_lt hlt) h1
        · have e2 : key (swapped q (i / 2) i) (j / 2) = key q (j / 2) := by
            rw [hk]; split_ifs <;> first | rfl | omega
          rw [e2]
          exact hu.1 j hj0 hj1 hji
  · intro c hp1 hc1 hcp
    rw [swapped_size] at hc1
    have e2 : key (swapped q (i / 2) i) (i / 2 / 2) = key q (i / 2 / 2) := by
      rw [hk]; split_ifs <;> first | rfl | omega
    rw [e2]
    have hpp := hu.1 (i / 2) hp1 (by omega) (by omega)
    by_cases hci : c = i
    · have e1 : key (swapped q (i / 2) i) c = key q (i / 2) := by
        rw [hk]; split_ifs <;> first | rfl | omega
      rw [e1]
      exact hpp
    · have e1 : key (swapped q (i / 2) i) c = key q c := by
        rw [hk]; split_ifs <;> first | rfl | omega
      rw [e1]
      have h1 := hu.1 c (by omega) hc1 hci
      rw [hcp] at h1
      exact le_trans hpp h1

theorem HeapOrd_of_UpOK {q : IndexPriorityQueue T} {i : Int} (hu : UpOK q i)
    (h : 1 < i → key q (i / 2) ≤ key q i) : HeapOrd q := by
  intro j hj0 hj1
  by_cases hji : j = i
  · subst hji
    exact h hj0
  · exact hu.1 j hj0 hj1 hji

theorem swimAux_spec (n : Nat) : ∀ (q : IndexPriorityQueue T) (i m : Int), Shape q → Bij q m →
    q.size_ ≤ m → 1 ≤ i → i ≤ q.size_ → UpOK q i → i.toNat < n →
    ∃ q', swimAux n q i = .ok q' ∧ Shape q' ∧ Bij q' m ∧ Frame q q' ∧ HeapOrd q' ∧
      (∀ j, i < j → slotIdx q' j = slotIdx q j) := by
  induction n with
  | zero =>
    intro q i m _ _ _ _ _ _ h
    omega
  | succ n ih =>
    intro q i m hs hb hsz hi0 hi1 hu hn
    have hp : parent i = i / 2 := parent_eq (by omega)
    have hlq := hs.lenQ
    have hlp := hs.lenP
    have hcap := hb.le_cap
    unfold swimAux
    simp only [hp]
    by_cases hgt : i / 2 > 0
    · rw [if_pos hgt]
      obtain ⟨si0, si1, -⟩ := hb.slot i hi0 (by omega)
      obtain ⟨sp0, sp1, -⟩ := hb.slot (i / 2) (by omega) (by omega)
      rw [prioAt_ok q i (by omega) (by omega) si0 (by omega),
        prioAt_ok q (i / 2) (by omega) (by omega) sp0 (by omega)]
      simp only []
      by_cases hlt : key q i < key q (i / 2)
      · rw [if_pos hlt, swap_exec hs hb (i / 2) i (by omega) (by omega) hi0 (by omega)]
        obtain ⟨q', h1, h2, h3, h4, h5, h6⟩ := ih (swapped q (i / 2) i) (i / 2) m
          (hs.keep_swapped _ _) (hb.keep_swap hs _ _ (by omega) (by omega) hi0 (by omega))
          (by simpa using hsz) (by omega) (by simp only [swapped_size]; omega)
          (upOK_swapped hs hb hsz (by omega) hi1 hu hlt) (by omega)
        refine ⟨q', h1, h2, h3,
          (Frame.of_swap hs hb _ _ (by omega) (by omega) hi0 (by omega)).trans h4, h5,
          fun j hj => ?_⟩
        rw [h6 j (by omega),
          (swapped_views hs hb _ _ (by omega) (by omega) hi0 (by omega)).1 j,
          if_neg (by omega), if_neg (by omega)]
      · rw [if_neg hlt]
        exact ⟨q, rfl, hs, hb, Frame.refl q,
          HeapOrd_of_UpOK hu (fun _ => le_of_not_lt hlt), fun _ _ => rfl⟩
    · rw [if_neg hgt]
      exact ⟨q, rfl, hs, hb, Frame.refl q,
        HeapOrd_of_UpOK hu (fun h => by omega), fun _ _ => rfl⟩

/-- The loop of `swim` stops at once when slot `i` is not below its parent. -/
theorem swimAux_stop (n : Nat) (q : IndexPriorityQueue T) (i m : Int) (hs : Shape q)
    (hb : Bij q m) (hi0 : 1 ≤ i) (hi1 : i ≤ m) (h : 1 < i → key q (i / 2) ≤ key q i) :
    swimAux (n + 1) q i = .ok q := by
  have hp : parent i = i / 2 := parent_eq (by omega)
  have hlq := hs.lenQ
  have hlp := hs.lenP
  have hcap := hb.le_cap
  unfold swimAux
  simp only [hp]
  by_cases hgt : i / 2 > 0
  · rw [if_pos hgt]
    obtain ⟨si0, si1, -⟩ := hb.slot i hi0 (by omega)
    obtain ⟨sp0, sp1, -⟩ := hb.slot (i / 2) (by omega) (by omega)
    rw [prioAt_ok q i (by omega) (by omega) si0 (by omega),
      prioAt_ok q (i / 2) (by omega) (by omega) sp0 (by omega)]
    simp only []
    rw [if_neg (not_lt_of_le (h (by omega)))]
  · rw [if_neg hgt]

/-! ## The loop of `sink` -/

theorem sinkChoice_spec {q : IndexPriorityQueue T} {m : Int} (hs : Shape q) (hb : Bij q m)
    (hsz : q.size_ ≤ m) {i : Int} (hi0 : 1 ≤ i) (hi1 : 2 * i ≤ q.size_)
    (hsm : i < 1073741824) :
    ∃ s, sinkChoice q i = some s ∧ (s = 2 * i ∨ s = 2 * i + 1) ∧ s ≤ q.size_ ∧
      ∀ c, c ≤ q.size_ → c / 2 = i → key q s ≤ key q c := by
  have hlq := hs.lenQ
  have hlp := hs.lenP
  have hcap := hb.le_cap
  unfold sinkChoice
  simp only [leftChild_eq (show 0 ≤ i by omega) hsm, rightChild_eq (show 0 ≤ i by omega) hsm,
    size]
  by_cases hr : 2 * i + 1 ≤ q.size_
  · rw [if_pos hr]
    obtain ⟨sl0, sl1, -⟩ := hb.slot (2 * i) (by omega) (by omega)
    obtain ⟨sr0, sr1, -⟩ := hb.slot (2 * i + 1) (by omega) (by omega)
    rw [prioAt_ok q (2 * i) (by omega) (by omega) sl0 (by omega),
      prioAt_ok q (2 * i + 1) (by omega) (by omega) sr0 (by omega)]
    simp only []
    by_cases hgt : key q (2 * i) > key q (2 * i + 1)
    · refine ⟨2 * i + 1, by rw [if_pos hgt], Or.inr rfl, hr, fun c hc1 hc2 => ?_⟩
      have hc : c = 2 * i ∨ c = 2 * i + 1 := by omega
      rcases hc with hc | hc
      · rw [hc]
        exact le_of_lt hgt
      · rw [hc]
    · refine ⟨2 * i, by rw [if_neg hgt], Or.inl rfl, hi1, fun c hc1 hc2 => ?_⟩
      have hc : c = 2 * i ∨ c = 2 * i + 1 := by omega
      rcases hc with hc | hc
      · rw [hc]
      · rw [hc]
        exact le_of_not_lt hgt
  · rw [if_neg hr]
    refine ⟨2 * i, rfl, Or.inl rfl, hi1, fun c hc1 hc2 => ?_⟩
    have hc : c = 2 * i := by omega
    rw [hc]

theorem downOK_swapped {q : IndexPriorityQueue T} {m : Int} (hs : Shape q) (hb : Bij q m)
    (hsz : q.size_ ≤ m) {i s : Int} (hi0 : 1 ≤ i) (hs0 : s = 2 * i ∨ s = 2 * i + 1)
    (hs1 : s ≤ q.size_) (hd : DownOK q i)
    (hmin : ∀ c, c ≤ q.size_ → c / 2 = i → key q s ≤ key q c)
    (hlt : key q s < key q i) : DownOK (swapped q i s) s := by
  have hk := key_swapped hs hb i s (by omega) (by omega) (by omega) (by omega)
  constructor
  · intro j hj0 hj1 hjp
    rw [swapped_size] at hj1
    by_cases hjs : j = s
    · have e1 : key (swapped q i s) j = key q i := by
        rw [hk]; split_ifs <;> first | rfl | omega
      have e2 : key (swapped q i s) (j / 2) = key q s := by
        rw [hk]; split_ifs <;> first | rfl | omega
      rw [e1, e2]
      exact le_of_lt hlt
    · by_cases hji : j = i
      · have e1 : key (swapped q i s) j = key q s := by
          rw [hk]; split_ifs <;> first | rfl | omega
        have e2 : key (swapped q i s) (j / 2) = key q (i / 2) := by
          rw [hk]; split_ifs <;> first | rfl | (subst hji; rfl) | omega
        rw [e1, e2]
        exact hd.2 s (by omega) hs1 (by omega)
      · have e1 : key (swapped q i s) j = key q j := by
          rw [hk]; split_ifs <;> first | rfl | omega
        rw [e1]
        by_cases hc : j / 2 = i
        · have e2 : key (swapped q i s) (j / 2) = key q s := by
            rw [hk]; split_ifs <;> first | rfl | omega
          rw [e2]
          exact hmin j hj1 hc
        · have e2 : key (swapped q i s) (j / 2) = key q (j / 2) := by
            rw [hk]; split_ifs <;> first | rfl | omega
          rw [e2]
          exact hd.1 j hj0 hj1 hc
  · intro c hp1 hc1 hcp
    rw [swapped_size] at hc1
    have e2 : key (swapped q i s) (s / 2) = key q s := by
      rw [hk]; split_ifs <;> first | rfl | omega
    have e1 : key (swapped q i s) c = key q c := by
      rw [hk]; split_ifs <;> first | rfl | omega
    rw [e1, e2]
    have h1 := hd.1 c (by omega) hc1 (by omega)
    rw [hcp] at h1
    exact h1

/-- From a slot whose doubling leaves the range of `int`, the loop of `sink` reads
the heap array at a negative slot and throws. -/
theorem sinkAux_big (n : Nat) (q : IndexPriorityQueue T) {i : Int} (h0 : 1073741824 ≤ i)
    (h1 : i < 2147483647) (hn : 0 ≤ q.size_) : sinkAux (n + 1) q i = .outOfRange q := by
  have hl := leftChild_neg h0 h1
  have hr := rightChild_neg h0 h1
  have hc : sinkChoice q i = none := by
    unfold sinkChoice
    simp only [size]
    rw [if_pos (by omega)]
    have e : prioAt q (leftChild i) = none := by
      unfold prioAt
      rw [vecAt_eq_none (Or.inl hl)]
      rfl
    rw [e]
  unfold sinkAux
  simp only [size]
  rw [if_pos (by omega), hc]

/-- The loop of `sink`: either it restores heap order, or the capacity is at least
`2^30` and it throws. -/
theorem sinkAux_cases (n : Nat) : ∀ (q : IndexPriorityQueue T) (i m : Int), Shape q → Bij q m →
    q.size_ ≤ m → 0 ≤ q.size_ → 1 ≤ i → i ≤ m → q.maxSize_ < 2147483647 → DownOK q i →
    (q.size_ + 1 - i).toNat < n →
    (1073741824 ≤ q.maxSize_ ∧ ∃ s, sinkAux n q i = .outOfRange s) ∨
    ∃ q', sinkAux n q i = .ok q' ∧ Shape q' ∧ Bij q' m ∧ Frame q q' ∧ HeapOrd q' ∧
      (∀ j, j < i ∨ q.size_ < j → slotIdx q' j = slotIdx q j) := by
  induction n with
  | zero =>
    intro q i m _ _ _ _ _ _ _ _ h
    omega
  | succ n ih =>
    intro q i m hs hb hsz hsz0 hi0 hi1 hci hd hn
    have hlq := hs.lenQ
    have hlp := hs.lenP
    have hcap := hb.le_cap
    by_cases hsm : i < 1073741824
    · unfold sinkAux
      simp only [leftChild_eq (show 0 ≤ i by omega) hsm, size]
      by_cases h2 : 2 * i ≤ q.size_
      · rw [if_pos h2]
        obtain ⟨s, hsc, hs0, hs1, hmin⟩ := sinkChoice_spec hs hb hsz hi0 h2 hsm
        rw [hsc]
        simp only []
        obtain ⟨si0, si1, -⟩ := hb.slot i hi0 (by omega)
        obtain ⟨ss0, ss1, -⟩ := hb.slot s (by omega) (by omega)
        rw [prioAt_ok q i (by omega) (by omega) si0 (by omega),
          prioAt_ok q s (by omega) (by omega) ss0 (by omega)]
        simp only []
        by_cases hle : key q i ≤ key q s
        · rw [if_pos hle]
          refine Or.inr ⟨q, rfl, hs, hb, Frame.refl q, fun j hj0 hj1 => ?_, fun _ _ => rfl⟩
          by_cases hc : j / 2 = i
          · rw [hc]
            exact le_trans hle (hmin j hj1 hc)
          · exact hd.1 j hj0 hj1 hc
        · rw [if_neg hle, swap_exec hs hb i s hi0 (by omega) (by omega) (by omega)]
          rcases ih (swapped q i s) s m
            (hs.keep_swapped _ _) (hb.keep_swap hs _ _ hi0 (by omega) (by omega) (by omega))
            (by simpa using hsz) (by simpa using hsz0) (by omega) (by omega)
            (by simpa using hci)
            (downOK_swapped hs hb hsz hi0 hs0 hs1 hd hmin (lt_of_not_le hle))
            (by simp only [swapped_size]; omega) with
            ⟨hc, s', hs'⟩ | ⟨q', h1, h2', h3, h4, h5, h6⟩
          · exact Or.inl ⟨hc, s', hs'⟩
          · refine Or.inr ⟨q', h1, h2', h3,
              (Frame.of_swap hs hb _ _ hi0 (by omega) (by omega) (by omega)).trans h4, h5,
              fun j hj => ?_⟩
            rw [h6 j (by simp only [swapped_size]; omega),
              (swapped_views hs hb _ _ hi0 (by omega) (by omega) (by omega)).1 j,
              if_neg (by omega), if_neg (by omega)]
      · rw [if_neg h2]
        refine Or.inr ⟨q, rfl, hs, hb, Frame.refl q, fun j hj0 hj1 => ?_, fun _ _ => rfl⟩
        exact hd.1 j hj0 hj1 (by omega)
    · exact Or.inl ⟨by omega, q, sinkAux_big n q (by omega) (by omega) hsz0⟩

/-- Below capacity `2^30` the loop of `sink` returns and restores heap order. -/
theorem sinkAux_spec (n : Nat) (q : IndexPriorityQueue T) (i m : Int) (hs : Shape q)
    (hb : Bij q m) (hsz : q.size_ ≤ m) (hsz0 : 0 ≤ q.size_) (hi0 : 1 ≤ i) (hi1 : i ≤ m)
    (hcap : q.maxSize_ < 1073741824) (hd : DownOK q i)
    (hn : (q.size_ + 1 - i).toNat < n) :
    ∃ q', sinkAux n q i = .ok q' ∧ Shape q' ∧ Bij q' m ∧ Frame q q' ∧ HeapOrd q' ∧
      (∀ j, j < i ∨ q.size_ < j → slotIdx q' j = slotIdx q j) := by
  rcases sinkAux_cases n q i m hs hb hsz hsz0 hi0 hi1 (by omega) hd hn with ⟨hc, -⟩ | h
  · omega
  · exact h

theorem DownOK_of_HeapOrd {q : IndexPriorityQueue T} (h : HeapOrd q) (i : Int) :
    DownOK q i := by
  constructor
  · intro j hj0 hj1 _
    exact h j hj0 hj1
  · intro c hi hc1 hc2
    have h1 := h c (by omega) hc1
    have h2 := h i hi (by omega)
    rw [hc2] at h1
    exact le_trans h2 h1

/-! ## The constructor -/

theorem ctorLoop_spec (k : Nat) : ∀ (v : List Int) (i : Int), 0 ≤ i → i + k = v.length →
    ∃ w, ctorLoop v k i = some w ∧ w.length = v.length ∧
      ∀ j, (i ≤ j → j < v.length → vget w 0 j = -1) ∧ (j < i → vget w 0 j = vget v 0 j) := by
  induction k with
  | zero =>
    intro v i _ hlen
    refine ⟨v, rfl, rfl, fun j => ⟨fun h1 h2 => ?_, fun _ => rfl⟩⟩
    simp only [Nat.cast_zero, add_zero] at hlen
    omega
  | succ k ih =>
    intro v i hi hlen
    have hlt : i < v.length := by
      push_cast at hlen
      omega
    obtain ⟨w, h1, h2, h3⟩ := ih (v.set i.toNat (-1)) (i + 1) (by omega)
      (by rw [List.length_set]; push_cast at hlen ⊢; omega)
    refine ⟨w, ?_, by rw [h2, List.length_set], fun j => ⟨fun hj0 hj1 => ?_, fun hj => ?_⟩⟩
    · simp only [ctorLoop, vecSet_of_lt (-1) hi hlt, Option.bind]
      exact h1
    · by_cases hji : j = i
      · rw [(h3 j).2 (by omega), vget_set 0 (-1) j hi hlt, if_pos hji]
      · exact (h3 j).1 (by omega) (by rw [List.length_set]; exact hj1)
    · rw [(h3 j).2 (by omega), vget_set 0 (-1) j hi hlt, if_neg (by omega)]

theorem Bij.keep_size {q : IndexPriorityQueue T} {m : Int} (h : Bij q m) (n : Int) :
    Bij (withSize q n) m :=
  ⟨h.nonneg, h.le_cap, h.slot, h.pos⟩

theorem ctor_spec {N : Int} {q : IndexPriorityQueue T} (h : ctor N = some q) :
    Inv q ∧ q.size_ = 0 ∧ q.maxSize_ = N ∧ ∀ x, 0 ≤ x → x < N → posOf q x = -1 := by
  unfold ctor at h
  by_cases hN : N < 0 ∨ N ≥ 2147483648
  · rw [if_pos hN] at h
    exact absurd h (by simp)
  · rw [if_neg hN] at h
    by_cases hM : wrapInt (N + 1) < 0
    · rw [if_pos hM] at h
      exact absurd h (by simp)
    · rw [if_neg hM] at h
      have hN1 : N < 2147483647 := by
        by_contra hge
        rw [wrapInt_over (by omega) (by omega)] at hM
        omega
      have hM1 : wrapInt (N + 1) = N + 1 := wrapInt_eq (by omega) (by omega)
      have hN0 : 0 ≤ N := by omega
      obtain ⟨w, h1, h2, h3⟩ := ctorLoop_spec N.toNat (List.replicate N.toNat 0) 0 le_rfl
        (by simp)
      rw [h1] at h
      simp only [Option.map_some', Option.some.injEq] at h
      subst h
      have hw : (w.length : Int) = N := by
        rw [h2, List.length_replicate]
        omega
      have hpos : ∀ x, 0 ≤ x → x < N → vget w 0 x = -1 := fun x hx0 hx1 =>
        (h3 x).1 hx0 (by rw [List.length_replicate]; omega)
      refine ⟨⟨⟨hN0, ?_, ?_, hw⟩, ⟨le_rfl, hN0, ?_, ?_⟩, ?_, hN1⟩,
        rfl, rfl, hpos⟩
      · simp only [List.length_replicate]
        omega
      · simp only [List.length_replicate, hM1]
        omega
      · intro j hj0 hj1
        simp only at hj1
        omega
      · intro x hx0 hx1 hx
        exact absurd (hpos x hx0 hx1) hx
      · intro j hj0 hj1
        simp only at hj1
        omega

theorem ctor_ok {N : Int} (hN : 0 ≤ N) (hN1 : N < 2147483647) :
    ∃ q : IndexPriorityQueue T, ctor N = some q := by
  obtain ⟨w, h1, -, -⟩ := ctorLoop_spec N.toNat (List.replicate N.toNat 0) 0 le_rfl (by simp)
  unfold ctor
  rw [if_neg (by omega), wrapInt_eq (show -2147483648 ≤ N + 1 by omega) (by omega),
    if_neg (by omega), h1]
  exact ⟨_, rfl⟩

/-! ## `contains`, `top` and the minimum -/

theorem contains_eq {q : IndexPriorityQueue T} (hs : Shape q) (x : Int) :
    contains q x = some (decide (0 ≤ x ∧ x < q.maxSize_ ∧ posOf q x ≠ -1)) := by
  have hli := hs.lenI
  unfold contains
  by_cases hx : x < 0 ∨ x ≥ q.maxSize_
  · rw [if_pos hx]
    have : ¬ (0 ≤ x ∧ x < q.maxSize_ ∧ posOf q x ≠ -1) := by omega
    simp [this]
  · rw [if_neg hx, vecAt_pos q x (by omega) (by omega)]
    have h0 : 0 ≤ x := by omega
    have h1 : x < q.maxSize_ := by omega
    by_cases hp : posOf q x = -1 <;> simp [h0, h1, hp]

theorem contains_true_iff {q : IndexPriorityQueue T} (hs : Shape q) (x : Int) :
    contains q x = some true ↔ (0 ≤ x ∧ x < q.maxSize_ ∧ posOf q x ≠ -1) := by
  rw [contains_eq hs]
  simp

theorem contains_false_iff {q : IndexPriorityQueue T} (hs : Shape q) (x : Int) :
    contains q x = some false ↔ ¬ (0 ≤ x ∧ x < q.maxSize_ ∧ posOf q x ≠ -1) := by
  rw [contains_eq hs]
  simp

theorem top_eq {q : IndexPriorityQueue T} (hi : Inv q) (hpos : 0 < q.size_) :
    top q = some (key q 1, slotIdx q 1) := by
  have hlq := hi.shape.lenQ
  have hlp := hi.shape.lenP
  have hcap := hi.bij.le_cap
  obtain ⟨s0, s1, -⟩ := hi.bij.slot 1 le_rfl (by omega)
  have he : empty q = false := by
    simp only [empty, beq_eq_false_iff_ne]
    omega
  unfold top
  simp only [he, Bool.not_false, if_true]
  rw [vecAt_slot q 1 (by omega) (by omega)]
  simp only []
  rw [vecAt_prio q _ s0 (by omega)]
  rfl

theorem root_le (n : Nat) {q : IndexPriorityQueue T} (ho : HeapOrd q) :
    ∀ j : Int, j.toNat ≤ n → 1 ≤ j → j ≤ q.size_ → key q 1 ≤ key q j := by
  induction n with
  | zero =>
    intro j h0 h1 _
    omega
  | succ n ih =>
    intro j h0 h1 h2
    by_cases hj : j = 1
    · rw [hj]
    · exact le_trans (ih (j / 2) (by omega) (by omega) (by omega)) (ho j (by omega) h2)

/-- Pigeonhole: an in-range index without a position leaves room for one more slot. -/
theorem Bij.lt_cap {q : IndexPriorityQueue T} {n : Int} (hb : Bij q n) {idx : Int}
    (h0 : 0 ≤ idx) (h1 : idx < q.maxSize_) (h : posOf q idx = -1) : n < q.maxSize_ := by
  have hcard := Finset.card_le_card_of_injOn (s := Finset.Icc 1 n)
    (t := (Finset.Ico 0 q.maxSize_).erase idx) (slotIdx q)
    (by
      intro j hj
      rw [Finset.mem_Icc] at hj
      obtain ⟨s0, s1, s2⟩ := hb.slot j hj.1 hj.2
      rw [Finset.mem_erase, Finset.mem_Ico]
      refine ⟨fun he => ?_, s0, s1⟩
      rw [he, h] at s2
      omega)
    (by
      intro a ha b hb'
      rw [Finset.mem_coe, Finset.mem_Icc] at ha hb'
      exact hb.slot_inj ha.1 ha.2 hb'.1 hb'.2)
  rw [Finset.card_erase_of_mem (by rw [Finset.mem_Ico]; exact ⟨h0, h1⟩), Int.card_Icc,
    Int.card_Ico] at hcard
  have := hb.nonneg
  omega

/-! ## `push` -/

theorem pushed_views {q : IndexPriorityQueue T} (hs : Shape q) (p : T) {idx : Int}
    (h0 : 0 ≤ idx) (h1 : idx < q.maxSize_) (hn0 : 0 ≤ q.size_) (hn1 : q.size_ < q.maxSize_) :
    (∀ k, slotIdx (pushed q p idx) k = if k = q.size_ + 1 then idx else slotIdx q k) ∧
    (∀ x, posOf (pushed q p idx) x = if x = idx then q.size_ + 1 else posOf q x) ∧
    (∀ x, prioOf (pushed q p idx) x = if x = idx then p else prioOf q x) := by
  have hlq := hs.lenQ
  have hlp := hs.lenP
  have hli := hs.lenI
  refine ⟨fun k => ?_, fun x => ?_, fun x => ?_⟩
  · simp only [pushed, slotIdx_withPos]
    rw [slotIdx_withSlot _ _ _ _ (by omega) (by simp only [withPrio, withSize]; omega)]
    rfl
  · simp only [pushed]
    rw [posOf_withPos _ _ _ _ h0 (by simp only [withSlot, withPrio, withSize]; omega)]
    rfl
  · simp only [pushed, prioOf_withPos, prioOf_withSlot]
    rw [prioOf_withPrio _ _ _ _ h0 (by simp only [withSize]; omega)]
    rfl

theorem Shape.keep_pushed {q : IndexPriorityQueue T} (hs : Shape q) (p : T) (idx : Int) :
    Shape (pushed q p idx) :=
  ((((hs.keep_withSize _).keep_withPrio _ _).keep_withSlot _ _).keep_withPos _ _)

theorem push_exec {q : IndexPriorityQueue T} (hs : Shape q) (p : T) {idx : Int}
    (h0 : 0 ≤ idx) (h1 : idx < q.maxSize_) (hab : posOf q idx = -1) (hn0 : 0 ≤ q.size_)
    (hn1 : q.size_ < q.maxSize_) :
    push q p idx = swim (pushed q p idx) (q.size_ + 1) := by
  have hlq := hs.lenQ
  have hlp := hs.lenP
  have hli := hs.lenI
  have hc : contains q idx = some false := by
    rw [contains_false_iff hs]
    intro h
    exact h.2.2 hab
  unfold push
  rw [hc]
  simp only []
  rw [show ({ q with size_ := q.size_ + 1 } : IndexPriorityQueue T) =
    withSize q (q.size_ + 1) from rfl]
  rw [setPriority_ok _ idx p h0 (by simp only [withSize]; omega)]
  simp only [Outcome.bind]
  rw [setSlot_ok _ _ idx (by simp only [withPrio, withSize]; omega)
    (by simp only [withPrio, withSize]; omega)]
  simp only [Outcome.bind]
  rw [setPosition_ok _ idx _ h0 (by simp only [withSlot, withPrio, withSize]; omega)]
  simp only [Outcome.bind]
  rfl

theorem push_noop {q : IndexPriorityQueue T} (p : T) {idx : Int}
    (h : contains q idx = some true) : push q p idx = .ok q := by
  unfold push
  rw [h]

/-- Effect of `push` on an absent in-range index. -/
theorem push_spec {q : IndexPriorityQueue T} (hi : Inv q) (p : T) {idx : Int}
    (h0 : 0 ≤ idx) (h1 : idx < q.maxSize_) (hab : posOf q idx = -1) :
    ∃ q', push q p idx = .ok q' ∧ Inv q' ∧ q'.size_ = q.size_ + 1 ∧
      q'.maxSize_ = q.maxSize_ ∧ posOf q' idx ≠ -1 ∧
      (∀ x, prioOf q' x = if x = idx then p else prioOf q x) ∧
      (∀ x, x ≠ idx → (posOf q' x = -1 ↔ posOf q x = -1)) := by
  have hs := hi.shape
  have hb := hi.bij
  have hn0 := hb.nonneg
  have hn1 := hb.lt_cap h0 h1 hab
  obtain ⟨vs, vp, vr⟩ := pushed_views hs p h0 h1 hn0 hn1
  have hkey : ∀ j, 1 ≤ j → j ≤ q.size_ → key (pushed q p idx) j = key q j := by
    intro j hj0 hj1
    obtain ⟨s0, s1, s2⟩ := hb.slot j hj0 hj1
    have hne : ¬ slotIdx q j = idx := fun he => by
      rw [he, hab] at s2
      omega
    simp only [key]
    rw [vs j, if_neg (by omega), vr, if_neg hne]
  have hb' : Bij (pushed q p idx) (q.size_ + 1) := by
    refine ⟨by omega, by
      show q.size_ + 1 ≤ q.maxSize_
      omega, ?_, ?_⟩
    · intro j hj0 hj1
      show _ ∧ _ < q.maxSize_ ∧ _
      rw [vs j]
      by_cases hj : j = q.size_ + 1
      · rw [if_pos hj, vp, if_pos rfl]
        exact ⟨h0, h1, hj.symm⟩
      · rw [if_neg hj]
        obtain ⟨s0, s1, s2⟩ := hb.slot j hj0 (by omega)
        have hne : ¬ slotIdx q j = idx := fun he => by
          rw [he, hab] at s2
          omega
        rw [vp, if_neg hne]
        exact ⟨s0, s1, s2⟩
    · intro x hx0 hx1 hx
      have hx1' : x < q.maxSize_ := hx1
      rw [vp] at hx ⊢
      by_cases hxi : x = idx
      · rw [if_pos hxi, vs, if_pos rfl]
        exact ⟨by omega, le_rfl, hxi.symm⟩
      · rw [if_neg hxi] at hx ⊢
        obtain ⟨p0, p1, p2⟩ := hb.pos x hx0 hx1' hx
        rw [vs, if_neg (by omega)]
        exact ⟨p0, by omega, p2⟩
  have hu : UpOK (pushed q p idx) (q.size_ + 1) := by
    constructor
    · intro j hj0 hj1 hj2
      have hj1' : j ≤ q.size_ + 1 := hj1
      rw [hkey j (by omega) (by omega), hkey (j / 2) (by omega) (by omega)]
      exact hi.heap j hj0 (by omega)
    · intro c _ hc1 hc2
      have hc1' : c ≤ q.size_ + 1 := hc1
      omega
  obtain ⟨q', e1, e2, e3, e4, e5, -⟩ := swimAux_spec ((q.size_ + 1).toNat + 1)
    (pushed q p idx) (q.size_ + 1) (q.size_ + 1) (hs.keep_pushed p idx) hb' le_rfl (by omega)
    le_rfl hu (by omega)
  have hsz : q'.size_ = q.size_ + 1 := e4.size_eq
  refine ⟨q', by rw [push_exec hs p h0 h1 hab hn0 hn1]; exact e1,
    ⟨e2, by rw [hsz]; exact e3, e5, by rw [e4.cap_eq]; exact hi.capInt⟩,
    hsz, e4.cap_eq, ?_, fun x => ?_, fun x hx => ?_⟩
  · rw [Ne, e4.absent, vp, if_pos rfl]
    omega
  · rw [e4.prioOf, vr]
  · rw [e4.absent, vp, if_neg hx]

/-! ## Removing the last slot -/

theorem swap_exec_size {q : IndexPriorityQueue T} {m : Int} (hs : Shape q) (hb : Bij q m)
    (a : Int) (ha0 : 1 ≤ a) (ha1 : a ≤ m) (hb0 : 1 ≤ q.size_) (hb1 : q.size_ ≤ m)
    (f : IndexPriorityQueue T → Outcome (IndexPriorityQueue T)) :
    ((swapSlots q a q.size_).bind fun q1 =>
      (setPositionOfSlot q1 a a).bind fun q2 =>
      (setPositionOfSlot q2 q2.size_ q2.size_).bind f) = f (swapped q a q.size_) := by
  have h := swap_exec hs hb a q.size_ ha0 ha1 hb0 hb1 f
  have hcap := hb.le_cap
  have hlq := hs.lenQ
  have hli := hs.lenI
  obtain ⟨sa0, sa1, -⟩ := hb.slot a ha0 ha1
  obtain ⟨sb0, sb1, -⟩ := hb.slot q.size_ hb0 hb1
  have la : a < q.priorityQueue.length := by omega
  have lb : q.size_ < q.priorityQueue.length := by omega
  rw [swapSlots_ok q a q.size_ (by omega) la (by omega) lb] at h ⊢
  simp only [Outcome.bind] at h ⊢
  have e1 : slotIdx (withSlot (withSlot q a (slotIdx q q.size_)) q.size_ (slotIdx q a)) a =
      slotIdx q q.size_ := by
    rw [slotIdx_withSlot _ _ _ _ (by omega) (by simpa [withSlot] using lb),
      slotIdx_withSlot _ _ _ _ (by omega) la]
    by_cases hab : a = q.size_
    · simp [hab]
    · simp [hab]
  rw [setPositionOfSlot_ok _ a a (by omega) (by simpa [withSlot] using la)
    (by rw [e1]; exact sb0) (by rw [e1]; simp only [withSlot]; omega)] at h ⊢
  simp only [Outcome.bind] at h ⊢
  exact h

theorem Bij_remove {q q' : IndexPriorityQueue T} {n z : Int} (hb : Bij q (n + 1))
    (hn : 0 ≤ n) (hx : slotIdx q (n + 1) = z) (hcap : q'.maxSize_ = q.maxSize_)
    (hsl : ∀ k, k ≠ n + 1 → slotIdx q' k = slotIdx q k)
    (hps : ∀ x, posOf q' x = if x = z then -1 else posOf q x) : Bij q' n := by
  have hle := hb.le_cap
  refine ⟨hn, by omega, ?_, ?_⟩
  · intro j hj0 hj1
    obtain ⟨s0, s1, s2⟩ := hb.slot j hj0 (by omega)
    have hne : ¬ slotIdx q j = z := fun he => by
      have := hb.slot_inj hj0 (by omega) (by omega) le_rfl (he.trans hx.symm)
      omega
    rw [hsl j (by omega), hps, if_neg hne, hcap]
    exact ⟨s0, s1, s2⟩
  · intro x hz hx1 hxp
    rw [hcap] at hx1
    rw [hps] at hxp ⊢
    by_cases hxx : x = z
    · rw [if_pos hxx] at hxp
      exact absurd rfl hxp
    · rw [if_neg hxx] at hxp ⊢
      obtain ⟨p0, p1, p2⟩ := hb.pos x hz hx1 hxp
      have hne : posOf q x ≠ n + 1 := fun he => hxx (by rw [← p2, he, hx])
      rw [hsl _ hne]
      exact ⟨p0, by omega, p2⟩

/-! ## `pop` -/

theorem pop_exec {q : IndexPriorityQueue T} (hi : Inv q) (hpos : 0 < q.size_) :
    pop q = (sink (withSize (swapped q 1 q.size_) (q.size_ - 1)) 1).bind fun q5 =>
      (setPositionOfSlot q5 (q5.size_ + 1) (-1)).bind fun q6 =>
      setSlot q6 (q6.size_ + 1) (-1) := by
  have he : empty q = false := by
    simp only [empty, beq_eq_false_iff_ne]
    omega
  unfold pop
  simp only [he, Bool.false_eq_true, if_false]
  rw [swap_exec_size hi.shape hi.bij 1 le_rfl (by omega) (by omega) le_rfl]
  rfl

/-- Effect of `pop` on a non-empty queue: it removes the root, unless the capacity
is at least `2^30` and `sink` throws. -/
theorem pop_cases {q : IndexPriorityQueue T} (hi : Inv q) (hpos : 0 < q.size_) :
    (1073741824 ≤ q.maxSize_ ∧ ∃ s, pop q = .outOfRange s) ∨
    ∃ q', pop q = .ok q' ∧ Inv q' ∧ q'.size_ = q.size_ - 1 ∧ q'.maxSize_ = q.maxSize_ ∧
      q'.priorities = q.priorities ∧
      (∀ x, posOf q' x = -1 ↔ (x = slotIdx q 1 ∨ posOf q x = -1)) := by
  have hs := hi.shape
  have hb := hi.bij
  have hcap := hb.le_cap
  have hlq := hs.lenQ
  have hli := hs.lenI
  have he : empty q = false := by
    simp only [empty, beq_eq_false_iff_ne]
    omega
  obtain ⟨vs, vp⟩ := swapped_views hs hb 1 q.size_ le_rfl (by omega) (by omega) le_rfl
  have hk := key_swapped hs hb 1 q.size_ le_rfl (by omega) (by omega) le_rfl
  have hb3 := hb.keep_swap hs 1 q.size_ le_rfl (by omega) (by omega) le_rfl
  have hf3 := Frame.of_swap hs hb 1 q.size_ le_rfl (by omega) (by omega) le_rfl
  have hd : DownOK (withSize (swapped q 1 q.size_) (q.size_ - 1)) 1 := by
    constructor
    · intro j hj0 hj1 hj2
      have hj1' : j ≤ q.size_ - 1 := hj1
      show key (swapped q 1 q.size_) (j / 2) ≤ key (swapped q 1 q.size_) j
      rw [hk j, hk (j / 2), if_neg (by omega), if_neg (by omega), if_neg (by omega),
        if_neg (by omega)]
      exact hi.heap j hj0 (by omega)
    · intro c h1 _ _
      omega
  rcases sinkAux_cases
    (((withSize (swapped q 1 q.size_) (q.size_ - 1)).size_ + 1 - 1).toNat + 1)
    (withSize (swapped q 1 q.size_) (q.size_ - 1)) 1 q.size_
    ((hs.keep_swapped _ _).keep_withSize _) (hb3.keep_size _)
    (by show q.size_ - 1 ≤ q.size_; omega) (by show 0 ≤ q.size_ - 1; omega) le_rfl
    (by omega) hi.capInt hd (by omega) with ⟨hc, s, hthrow⟩ | ⟨q5, e1, e2, e3, e4, e5, e6⟩
  · refine Or.inl ⟨hc, s, ?_⟩
    rw [pop_exec hi hpos]
    unfold sink
    rw [hthrow]
    rfl
  right
  have hsz5 : q5.size_ = q.size_ - 1 := e4.size_eq
  have hcap5 : q5.maxSize_ = q.maxSize_ := e4.cap_eq
  have hlast : slotIdx q5 q.size_ = slotIdx q 1 := by
    rw [e6 q.size_ (Or.inr (by show q.size_ - 1 < q.size_; omega))]
    show slotIdx (swapped q 1 q.size_) q.size_ = _
    rw [vs, if_pos rfl]
  obtain ⟨t0, t1, -⟩ := hb.slot 1 le_rfl (by omega)
  have hlq5 := e2.lenQ
  have hli5 := e2.lenI
  have hn5 : q5.size_ + 1 = q.size_ := by omega
  refine ⟨withSlot (withPos q5 (slotIdx q 1) (-1)) q.size_ (-1), ?_,
    ⟨?_, ?_, ?_, by
      show q5.maxSize_ < _
      rw [hcap5]
      exact hi.capInt⟩, hsz5, hcap5, e4.prios, fun x => ?_⟩
  · rw [pop_exec hi hpos]
    unfold sink
    rw [e1]
    simp only [Outcome.bind]
    rw [hn5, setPositionOfSlot_ok q5 q.size_ (-1) (by omega) (by omega)
      (by rw [hlast]; exact t0) (by rw [hlast]; omega)]
    simp only [Outcome.bind]
    rw [show (withPos q5 (slotIdx q5 q.size_) (-1)).size_ + 1 = q.size_ from hn5,
      setSlot_ok _ q.size_ (-1) (by omega) (by simp only [withPos]; omega), hlast]
  · exact (e2.keep_withPos _ _).keep_withSlot _ _
  · show Bij _ q5.size_
    rw [hsz5]
    refine Bij_remove (q := q5) (z := slotIdx q 1) (by rw [sub_add_cancel]; exact e3)
      (by omega) (by rw [sub_add_cancel]; exact hlast) rfl (fun k hk' => ?_) (fun x => ?_)
    · rw [slotIdx_withSlot _ _ _ _ (by omega) (by simp only [withPos]; omega),
        if_neg (by omega)]
      rfl
    · rw [posOf_withSlot, posOf_withPos _ _ _ _ t0 (by omega)]
  · intro j hj0 hj1
    have hj1' : j ≤ q5.size_ := hj1
    have h := e5 j hj0 hj1'
    have ek : ∀ k, k ≠ q.size_ →
        key (withSlot (withPos q5 (slotIdx q 1) (-1)) q.size_ (-1)) k = key q5 k := by
      intro k hk'
      simp only [key, prioOf_withSlot, prioOf_withPos]
      rw [slotIdx_withSlot _ _ _ _ (by omega) (by simp only [withPos]; omega), if_neg hk']
      rfl
    rw [ek j (by omega), ek (j / 2) (by omega)]
    exact h
  · rw [posOf_withSlot, posOf_withPos _ _ _ _ t0 (by omega)]
    by_cases hx : x = slotIdx q 1
    · simp [hx]
    · rw [if_neg hx, e4.absent]
      show posOf (swapped q 1 q.size_) x = -1 ↔ _
      rw [hf3.absent]
      simp [hx]

/-- Whenever `pop` on a non-empty queue returns, it has removed the root. -/
theorem pop_step {q q' : IndexPriorityQueue T} (hi : Inv q) (hpos : 0 < q.size_)
    (h : pop q = .ok q') :
    Inv q' ∧ q'.size_ = q.size_ - 1 ∧ q'.maxSize_ = q.maxSize_ ∧
      q'.priorities = q.priorities ∧
      (∀ x, posOf q' x = -1 ↔ (x = slotIdx q 1 ∨ posOf q x = -1)) := by
  rcases pop_cases hi hpos with ⟨-, s, hs⟩ | ⟨q2, e1, rest⟩
  · rw [hs] at h
    exact absurd h (by simp)
  · rw [e1] at h
    cases h
    exact rest

/-! ## `erase` -/

/-- The `swim(i); sink(i)` pair of `erase` restores heap order around slot `i`,
unless the capacity is at least `2^30` and `sink` throws. -/
theorem erase_fix {q : IndexPriorityQueue T} {m i : Int} (hs : Shape q) (hb : Bij q m)
    (hsz : q.size_ + 1 = m) (hi0 : 1 ≤ i) (hi1 : i ≤ m) (hci : q.maxSize_ < 2147483647)
    (hA1 : ∀ j, 1 < j → j ≤ q.size_ → j ≠ i → j / 2 ≠ i → key q (j / 2) ≤ key q j)
    (hA2 : ∀ c, 1 < i → c ≤ q.size_ → c / 2 = i → key q (i / 2) ≤ key q c)
    (hA3 : i = m → 1 < i → key q (i / 2) ≤ key q i) :
    (1073741824 ≤ q.maxSize_ ∧
      ∃ s, ∀ f : IndexPriorityQueue T → Outcome (IndexPriorityQueue T),
        ((swim q i).bind fun q5 => (sink q5 i).bind f) = .outOfRange s) ∨
    ∃ q6, (∀ f : IndexPriorityQueue T → Outcome (IndexPriorityQueue T),
        ((swim q i).bind fun q5 => (sink q5 i).bind f) = f q6) ∧
      Shape q6 ∧ Bij q6 m ∧ Frame q q6 ∧ HeapOrd q6 ∧ slotIdx q6 m = slotIdx q m := by
  by_cases hcase : 1 < i ∧ i ≤ q.size_ ∧ key q i < key q (i / 2)
  · obtain ⟨c1, c2, c3⟩ := hcase
    have hu : UpOK q i := by
      refine ⟨fun j hj0 hj1 hj2 => ?_, hA2⟩
      by_cases hc : j / 2 = i
      · rw [hc]
        exact le_trans (le_of_lt c3) (hA2 j c1 hj1 hc)
      · exact hA1 j hj0 hj1 hj2 hc
    obtain ⟨q5, e1, e2, e3, e4, e5, e6⟩ := swimAux_spec (i.toNat + 1) q i m hs hb
      (by omega) hi0 c2 hu (by omega)
    rcases sinkAux_cases ((q5.size_ + 1 - i).toNat + 1) q5 i m
      e2 e3 (by rw [e4.size_eq]; omega) (by rw [e4.size_eq]; omega) hi0 hi1
      (by rw [e4.cap_eq]; exact hci) (DownOK_of_HeapOrd e5 i) (by omega) with
      ⟨hc, s, hthrow⟩ | ⟨q6, f1, f2, f3, f4, f5, f6⟩
    · refine Or.inl ⟨by rw [← e4.cap_eq]; exact hc, s, fun f => ?_⟩
      unfold swim
      rw [e1]
      simp only [Outcome.bind]
      unfold sink
      rw [hthrow]
    · refine Or.inr ⟨q6, fun f => ?_, f2, f3, e4.trans f4, f5, ?_⟩
      · unfold swim
        rw [e1]
        simp only [Outcome.bind]
        unfold sink
        rw [f1]
      · rw [f6 m (Or.inr (by rw [e4.size_eq]; omega)), e6 m (by omega)]
  · have hst : swimAux (i.toNat + 1) q i = .ok q := by
      refine swimAux_stop i.toNat q i m hs hb hi0 hi1 (fun h1 => ?_)
      by_cases him : i = m
      · exact hA3 him h1
      · by_contra hlt
        exact hcase ⟨h1, by omega, lt_of_not_le hlt⟩
    have hd : DownOK q i := by
      refine ⟨fun j hj0 hj1 hj2 => ?_, hA2⟩
      by_cases hji : j = i
      · subst hji
        by_contra hlt
        exact hcase ⟨hj0, hj1, lt_of_not_le hlt⟩
      · exact hA1 j hj0 hj1 hji hj2
    rcases sinkAux_cases ((q.size_ + 1 - i).toNat + 1) q i m
      hs hb (by omega) (by omega) hi0 hi1 hci hd (by omega) with
      ⟨hc, s, hthrow⟩ | ⟨q6, f1, f2, f3, f4, f5, f6⟩
    · refine Or.inl ⟨hc, s, fun f => ?_⟩
      unfold swim
      rw [hst]
      simp only [Outcome.bind]
      unfold sink
      rw [hthrow]
    · refine Or.inr ⟨q6, fun f => ?_, f2, f3, f4, f5, f6 m (Or.inr (by omega))⟩
      unfold swim
      rw [hst]
      simp only [Outcome.bind]
      unfold sink
      rw [f1]

/-- The statements of `erase` up to the call of `swim`, on a queued index. -/
theorem erase_exec {q : IndexPriorityQueue T} (hi : Inv q) {idx : Int}
    (h0 : 0 ≤ idx) (h1 : idx < q.maxSize_) (hq : posOf q idx ≠ -1) :
    erase q idx =
      (swim (withSize (swapped q (posOf q idx) q.size_) (q.size_ - 1)) (posOf q idx)).bind
        fun q5 => (sink q5 (posOf q idx)).bind fun q6 =>
          (setSlot q6 (q6.size_ + 1) (-1)).bind fun q7 => setPosition q7 idx (-1) := by
  have hs := hi.shape
  have hb := hi.bij
  have hli := hs.lenI
  obtain ⟨p0, p1, p2⟩ := hb.pos idx h0 h1 hq
  have hc : contains q idx = some true := (contains_true_iff hs idx).2 ⟨h0, h1, hq⟩
  unfold erase
  rw [hc]
  simp only []
  rw [vecAt_pos q idx h0 (by omega)]
  simp only []
  rw [swap_exec_size hs hb (posOf q idx) p0 p1 (by omega) le_rfl]
  rfl

/-- Effect of `erase` on a queued index: it removes the index, unless the capacity
is at least `2^30` and `sink` throws. -/
theorem erase_cases {q : IndexPriorityQueue T} (hi : Inv q) {idx : Int}
    (h0 : 0 ≤ idx) (h1 : idx < q.maxSize_) (hq : posOf q idx ≠ -1) :
    (1073741824 ≤ q.maxSize_ ∧ ∃ s, erase q idx = .outOfRange s) ∨
    ∃ q', erase q idx = .ok q' ∧ Inv q' ∧ q'.size_ = q.size_ - 1 ∧ q'.maxSize_ = q.maxSize_ ∧
      q'.priorities = q.priorities ∧
      (∀ x, posOf q' x = -1 ↔ (x = idx ∨ posOf q x = -1)) := by
  have hs := hi.shape
  have hb := hi.bij
  have hcap := hb.le_cap
  have hlq := hs.lenQ
  have hli := hs.lenI
  obtain ⟨p0, p1, p2⟩ := hb.pos idx h0 h1 hq
  have hc : contains q idx = some true := (contains_true_iff hs idx).2 ⟨h0, h1, hq⟩
  obtain ⟨vs, vp⟩ := swapped_views hs hb (posOf q idx) q.size_ p0 p1 (by omega) le_rfl
  have hk := key_swapped hs hb (posOf q idx) q.size_ p0 p1 (by omega) le_rfl
  have hb3 := hb.keep_swap hs (posOf q idx) q.size_ p0 p1 (by omega) le_rfl
  have hf3 := Frame.of_swap hs hb (posOf q idx) q.size_ p0 p1 (by omega) le_rfl
  have hk4 : ∀ k, key (withSize (swapped q (posOf q idx) q.size_) (q.size_ - 1)) k =
      if k = q.size_ then key q (posOf q idx)
      else if k = posOf q idx then key q q.size_ else key q k := hk
  have ek4 : ∀ k, k ≠ q.size_ → k ≠ posOf q idx →
      key (withSize (swapped q (posOf q idx) q.size_) (q.size_ - 1)) k = key q k :=
    fun k g1 g2 => by rw [hk4, if_neg g1, if_neg g2]
  rcases erase_fix
    (q := withSize (swapped q (posOf q idx) q.size_) (q.size_ - 1)) (m := q.size_)
    (i := posOf q idx) ((hs.keep_swapped _ _).keep_withSize _) (hb3.keep_size _)
    (by show q.size_ - 1 + 1 = q.size_; omega) p0 p1 hi.capInt
    (by
      intro j hj0 hj1 hj2 hj3
      have hj1' : j ≤ q.size_ - 1 := hj1
      rw [ek4 j (by omega) hj2, ek4 (j / 2) (by omega) hj3]
      exact hi.heap j hj0 (by omega))
    (by
      intro c hc0 hc1 hc2
      have hc1' : c ≤ q.size_ - 1 := hc1
      rw [ek4 c (by omega) (by omega), ek4 (posOf q idx / 2) (by omega) (by omega)]
      have g1 := hi.heap c (by omega) (by omega)
      rw [hc2] at g1
      exact le_trans (hi.heap (posOf q idx) hc0 p1) g1)
    (by
      intro him hgt
      rw [hk4 (posOf q idx), if_pos him, ek4 (posOf q idx / 2) (by omega) (by omega)]
      exact hi.heap (posOf q idx) hgt p1) with ⟨hbig, s, hthrow⟩ | ⟨q6, e1, e2, e3, e4, e5, e6⟩
  · refine Or.inl ⟨hbig, s, ?_⟩
    rw [erase_exec hi h0 h1 hq]
    exact hthrow _
  right
  have hsz6 : q6.size_ = q.size_ - 1 := e4.size_eq
  have hcap6 : q6.maxSize_ = q.maxSize_ := e4.cap_eq
  have hlast : slotIdx q6 q.size_ = idx := by
    rw [e6]
    show slotIdx (swapped q (posOf q idx) q.size_) q.size_ = _
    rw [vs, if_pos rfl, p2]
  have hlq6 := e2.lenQ
  have hli6 := e2.lenI
  have hn6 : q6.size_ + 1 = q.size_ := by omega
  refine ⟨withPos (withSlot q6 q.size_ (-1)) idx (-1), ?_, ⟨?_, ?_, ?_, by
      show q6.maxSize_ < _
      rw [hcap6]
      exact hi.capInt⟩, hsz6, hcap6, e4.prios, fun x => ?_⟩
  · rw [erase_exec hi h0 h1 hq, e1, hn6, setSlot_ok q6 q.size_ (-1) (by omega) (by omega)]
    simp only [Outcome.bind]
    rw [setPosition_ok _ idx (-1) h0 (by simp only [withSlot]; omega)]
  · exact (e2.keep_withSlot _ _).keep_withPos _ _
  · show Bij _ q6.size_
    rw [hsz6]
    refine Bij_remove (q := q6) (z := idx) (by rw [sub_add_cancel]; exact e3)
      (by omega) (by rw [sub_add_cancel]; exact hlast) rfl (fun k hk' => ?_) (fun x => ?_)
    · rw [slotIdx_withPos, slotIdx_withSlot _ _ _ _ (by omega) (by omega), if_neg (by omega)]
    · rw [posOf_withPos _ _ _ _ h0 (by simp only [withSlot]; omega)]
      rfl
  · intro j hj0 hj1
    have hj1' : j ≤ q6.size_ := hj1
    have h := e5 j hj0 hj1'
    have ek : ∀ k, k ≠ q.size_ →
        key (withPos (withSlot q6 q.size_ (-1)) idx (-1)) k = key q6 k := by
      intro k hk'
      simp only [key, prioOf_withSlot, prioOf_withPos, slotIdx_withPos]
      rw [slotIdx_withSlot _ _ _ _ (by omega) (by omega), if_neg hk']
    rw [ek j (by omega), ek (j / 2) (by omega)]
    exact h
  · rw [posOf_withPos _ _ _ _ h0 (by simp only [withSlot]; omega)]
    by_cases hx : x = idx
    · simp [hx]
    · rw [if_neg hx, posOf_withSlot, e4.absent]
      show posOf (swapped q (posOf q idx) q.size_) x = -1 ↔ _
      rw [hf3.absent]
      simp [hx]

/-- Whenever `erase` of a queued index returns, it has removed the index. -/
theorem erase_step {q q' : IndexPriorityQueue T} (hi : Inv q) {idx : Int}
    (h0 : 0 ≤ idx) (h1 : idx < q.maxSize_) (hq : posOf q idx ≠ -1)
    (h : erase q idx = .ok q') :
    Inv q' ∧ q'.size_ = q.size_ - 1 ∧ q'.maxSize_ = q.maxSize_ ∧
      q'.priorities = q.priorities ∧
      (∀ x, posOf q' x = -1 ↔ (x = idx ∨ posOf q x = -1)) := by
  rcases erase_cases hi h0 h1 hq with ⟨-, s, hs⟩ | ⟨q2, e1, rest⟩
  · rw [hs] at h
    exact absurd h (by simp)
  · rw [e1] at h
    cases h
    exact rest

theorem erase_noop {q : IndexPriorityQueue T} {idx : Int}
    (h : contains q idx = some false) : erase q idx = .ok q := by
  unfold erase
  rw [h]

/-! ## `changeKey` -/

theorem changeKey_absent {q : IndexPriorityQueue T} (k : T) {idx : Int}
    (h0 : 0 ≤ idx) (h1 : idx < q.maxSize_) (h : contains q idx = some false) :
    changeKey q k idx = push q k idx := by
  unfold changeKey
  rw [if_neg (by omega), h]

theorem changeKey_queued {q : IndexPriorityQueue T} (k : T) {idx : Int}
    (h0 : 0 ≤ idx) (h1 : idx < q.maxSize_) (h : contains q idx = some true) :
    changeKey q k idx = eraseThenPush q k idx := by
  unfold changeKey eraseThenPush
  rw [if_neg (by omega), h]

theorem changeKey_outside {q : IndexPriorityQueue T} (k : T) {idx : Int}
    (h : idx < 0 ∨ idx ≥ q.maxSize_) : changeKey q k idx = .ok q := by
  unfold changeKey
  rw [if_pos h]

/-- Effect of `changeKey` on a queued index: erase then push, unless the capacity
is at least `2^30` and the `sink` of `erase` throws. -/
theorem changeKey_cases {q : IndexPriorityQueue T} (hi : Inv q) (k : T) {idx : Int}
    (h0 : 0 ≤ idx) (h1 : idx < q.maxSize_) (hq : posOf q idx ≠ -1) :
    (1073741824 ≤ q.maxSize_ ∧ ∃ s, changeKey q k idx = .outOfRange s) ∨
    ∃ q1 q', erase q idx = .ok q1 ∧ push q1 k idx = .ok q' ∧ changeKey q k idx = .ok q' ∧
      Inv q' ∧ q'.size_ = q.size_ ∧ q'.maxSize_ = q.maxSize_ ∧ posOf q' idx ≠ -1 ∧
      (∀ x, prioOf q' x = if x = idx then k else prioOf q x) ∧
      (∀ x, x ≠ idx → (posOf q' x = -1 ↔ posOf q x = -1)) := by
  have hck := changeKey_queued k h0 h1 ((contains_true_iff hi.shape idx).2 ⟨h0, h1, hq⟩)
  rcases erase_cases hi h0 h1 hq with ⟨hc, s, hs⟩ | ⟨q1, e1, e2, e3, e4, e5, e6⟩
  · refine Or.inl ⟨hc, s, ?_⟩
    rw [hck]
    unfold eraseThenPush
    rw [hs]
    rfl
  · obtain ⟨q', f1, f2, f3, f4, f5, f6, f7⟩ := push_spec e2 k h0 (by rw [e4]; exact h1)
      ((e6 idx).2 (Or.inl rfl))
    refine Or.inr ⟨q1, q', e1, f1, ?_, f2, by omega, by omega, f5, fun x => ?_,
      fun x hx => ?_⟩
    · rw [hck]
      unfold eraseThenPush
      rw [e1]
      exact f1
    · rw [f6 x]
      simp only [prioOf, e5]
    · rw [f7 x hx, e6 x]
      simp [hx]

/-- Whenever `changeKey` on a queued index returns, the index carries the key. -/
theorem changeKey_step {q q' : IndexPriorityQueue T} (hi : Inv q) (k : T) {idx : Int}
    (h0 : 0 ≤ idx) (h1 : idx < q.maxSize_) (hq : posOf q idx ≠ -1)
    (h : changeKey q k idx = .ok q') :
    Inv q' ∧ q'.size_ = q.size_ ∧ q'.maxSize_ = q.maxSize_ ∧ posOf q' idx ≠ -1 ∧
      (∀ x, prioOf q' x = if x = idx then k else prioOf q x) ∧
      (∀ x, x ≠ idx → (posOf q' x = -1 ↔ posOf q x = -1)) := by
  rcases changeKey_cases hi k h0 h1 hq with ⟨-, s, hs⟩ | ⟨q1, q2, -, -, e3, rest⟩
  · rw [hs] at h
    exact absurd h (by simp)
  · rw [e3] at h
    cases h
    exact rest

/-! ## Reachable states satisfy the invariant -/

theorem push_inv {q q' : IndexPriorityQueue T} (hi : Inv q) {p : T} {idx : Int}
    (h0 : 0 ≤ idx) (h1 : idx < q.maxSize_) (h : push q p idx = .ok q') : Inv q' := by
  by_cases hab : posOf q idx = -1
  · obtain ⟨q2, e1, e2, -⟩ := push_spec hi p h0 h1 hab
    rw [e1] at h
    cases h
    exact e2
  · rw [push_noop p ((contains_true_iff hi.shape idx).2 ⟨h0, h1, hab⟩)] at h
    cases h
    exact hi

theorem pop_empty {q : IndexPriorityQueue T} (h : q.size_ = 0) : pop q = .ok q := by
  unfold pop
  simp [empty, h]

theorem pop_inv {q q' : IndexPriorityQueue T} (hi : Inv q) (h : pop q = .ok q') : Inv q' := by
  by_cases hz : q.size_ = 0
  · rw [pop_empty hz] at h
    cases h
    exact hi
  · have hn := hi.bij.nonneg
    exact (pop_step hi (by omega) h).1

theorem erase_inv {q q' : IndexPriorityQueue T} (hi : Inv q) {idx : Int}
    (h : erase q idx = .ok q') : Inv q' := by
  by_cases hc : 0 ≤ idx ∧ idx < q.maxSize_ ∧ posOf q idx ≠ -1
  · exact (erase_step hi hc.1 hc.2.1 hc.2.2 h).1
  · rw [erase_noop ((contains_false_iff hi.shape idx).2 hc)] at h
    cases h
    exact hi

theorem changeKey_inv {q q' : IndexPriorityQueue T} (hi : Inv q) {k : T} {idx : Int}
    (h : changeKey q k idx = .ok q') : Inv q' := by
  by_cases hr : idx < 0 ∨ idx ≥ q.maxSize_
  · rw [changeKey_outside k hr] at h
    cases h
    exact hi
  · by_cases hq : posOf q idx = -1
    · rw [changeKey_absent k (by omega) (by omega)
        ((contains_false_iff hi.shape idx).2 (fun hc => hc.2.2 hq))] at h
      exact push_inv hi (by omega) (by omega) h
    · exact (changeKey_step hi k (show 0 ≤ idx by omega) (by omega) hq h).1

theorem Reachable.inv {q : IndexPriorityQueue T} (h : Reachable q) : Inv q := by
  induction h with
  | ctor N q hc => exact (ctor_spec hc).1
  | push q q' p idx _ h0 h1 hp ih => exact push_inv ih h0 h1 hp
  | pop q q' _ hp ih => exact pop_inv ih hp
  | erase q q' idx _ he ih => exact erase_inv ih he
  | changeKey q q' k idx _ hc ih => exact changeKey_inv ih hc

theorem ReachableLog.reachable {q : IndexPriorityQueue T} {g : Int → Option T}
    (h : ReachableLog q g) : Reachable q := by
  induction h with
  | ctor N q hc => exact Reachable.ctor N q hc
  | push q q' g p idx _ h0 h1 hp ih => exact Reachable.push q q' p idx ih h0 h1 hp
  | pop q q' g _ hp ih => exact Reachable.pop q q' ih hp
  | erase q q' g idx _ he ih => exact Reachable.erase q q' idx ih he
  | changeKey q q' g k idx _ hc ih => exact Reachable.changeKey q q' k idx ih hc

/-- The log agrees with the stored priority of every queued index. -/
theorem ReachableLog.log {q : IndexPriorityQueue T} {g : Int → Option T}
    (h : ReachableLog q g) :
    ∀ x, 0 ≤ x → x < q.maxSize_ → posOf q x ≠ -1 → g x = some (prioOf q x) := by
  induction h with
  | ctor N q hc =>
    intro x hx0 hx1 hx
    obtain ⟨-, -, e3, e4⟩ := ctor_spec hc
    exact absurd (e4 x hx0 (by omega)) hx
  | push q q' g p idx hr h0 h1 hp ih =>
    have hi := hr.reachable.inv
    intro x hx0 hx1 hx
    by_cases hab : posOf q idx = -1
    · obtain ⟨q2, e1, e2, e3, e4, e5, e6, e7⟩ := push_spec hi p h0 h1 hab
      rw [e1] at hp
      cases hp
      have hc : contains q idx = some false :=
        (contains_false_iff hi.shape idx).2 (fun hc => hc.2.2 hab)
      simp only [logPush, hc, if_true]
      rw [e6 x]
      by_cases hxi : x = idx
      · rw [if_pos hxi, hxi, Function.update_same]
      · rw [if_neg hxi, Function.update_noteq hxi]
        exact ih x hx0 (by omega) (fun hh => hx ((e7 x hxi).2 hh))
    · have hc : contains q idx = some true :=
        (contains_true_iff hi.shape idx).2 ⟨h0, h1, hab⟩
      rw [push_noop p hc] at hp
      cases hp
      simp only [logPush, hc]
      exact ih x hx0 hx1 hx
  | pop q q' g hr hp ih =>
    have hi := hr.reachable.inv
    intro x hx0 hx1 hx
    by_cases hz : q.size_ = 0
    · rw [pop_empty hz] at hp
      cases hp
      exact ih x hx0 hx1 hx
    · have hn := hi.bij.nonneg
      obtain ⟨e2, e3, e4, e5, e6⟩ := pop_step hi (by omega) hp
      simp only [prioOf, e5]
      exact ih x hx0 (by omega) (fun hh => hx ((e6 x).2 (Or.inr hh)))
  | erase q q' g idx hr he ih =>
    have hi := hr.reachable.inv
    intro x hx0 hx1 hx
    by_cases hc : 0 ≤ idx ∧ idx < q.maxSize_ ∧ posOf q idx ≠ -1
    · obtain ⟨e2, e3, e4, e5, e6⟩ := erase_step hi hc.1 hc.2.1 hc.2.2 he
      simp only [prioOf, e5]
      exact ih x hx0 (by omega) (fun hh => hx ((e6 x).2 (Or.inr hh)))
    · rw [erase_noop ((contains_false_iff hi.shape idx).2 hc)] at he
      cases he
      exact ih x hx0 hx1 hx
  | changeKey q q' g k idx hr hc ih =>
    have hi := hr.reachable.inv
    intro x hx0 hx1 hx
    by_cases hrg : idx < 0 ∨ idx ≥ q.maxSize_
    · rw [changeKey_outside k hrg] at hc
      cases hc
      simp only [logChangeKey, hrg, if_true]
      exact ih x hx0 hx1 hx
    · simp only [logChangeKey, hrg, if_false]
      have key_step : q'.maxSize_ = q.maxSize_ ∧
          (∀ y, prioOf q' y = if y = idx then k else prioOf q y) ∧
          (∀ y, y ≠ idx → (posOf q' y = -1 ↔ posOf q y = -1)) := by
        by_cases hq : posOf q idx = -1
        · rw [changeKey_absent k (by omega) (by omega)
            ((contains_false_iff hi.shape idx).2 (fun hc => hc.2.2 hq))] at hc
          obtain ⟨q2, e1, e2, e3, e4, e5, e6, e7⟩ := push_spec hi k (show 0 ≤ idx by omega)
            (by omega) hq
          rw [e1] at hc
          cases hc
          exact ⟨e4, e6, e7⟩
        · obtain ⟨e4, e5, e6, e7, e8, e9⟩ := changeKey_step hi k
            (show 0 ≤ idx by omega) (by omega) hq hc
          exact ⟨e6, e8, e9⟩
      obtain ⟨k1, k2, k3⟩ := key_step
      rw [k2 x]
      by_cases hxi : x = idx
      · rw [if_pos hxi, hxi, Function.update_same]
      · rw [if_neg hxi, Function.update_noteq hxi]
        exact ih x hx0 (by omega) (fun hh => hx ((k3 x hxi).2 hh))

/-! ## The loops never run out of fuel -/

theorem Outcome.bind_ne_noFuel {σ : Type} {o : Outcome σ} {f : σ → Outcome σ}
    (h1 : o ≠ .noFuel) (h2 : ∀ s, o = .ok s → f s ≠ .noFuel) : o.bind f ≠ .noFuel := by
  cases o with
  | ok s => exact h2 s rfl
  | outOfRange s => simp [Outcome.bind]
  | noFuel => exact absurd rfl h1

theorem setPosition_fuel (q : IndexPriorityQueue T) (x v : Int) :
    setPosition q x v ≠ .noFuel ∧ ∀ s, setPosition q x v = .ok s → s.size_ = q.size_ := by
  unfold setPosition
  cases vecSet q.indexToPosition x v with
  | none => simp
  | some w =>
    refine ⟨by simp, fun s hs => ?_⟩
    cases hs
    rfl

theorem setSlot_fuel (q : IndexPriorityQueue T) (j x : Int) :
    setSlot q j x ≠ .noFuel ∧ ∀ s, setSlot q j x = .ok s → s.size_ = q.size_ := by
  unfold setSlot
  cases vecSet q.priorityQueue j x with
  | none => simp
  | some w =>
    refine ⟨by simp, fun s hs => ?_⟩
    cases hs
    rfl

theorem setPriority_fuel (q : IndexPriorityQueue T) (x : Int) (p : T) :
    setPriority q x p ≠ .noFuel ∧ ∀ s, setPriority q x p = .ok s → s.size_ = q.size_ := by
  unfold setPriority
  cases vecSet q.priorities x p with
  | none => simp
  | some w =>
    refine ⟨by simp, fun s hs => ?_⟩
    cases hs
    rfl

theorem setPositionOfSlot_fuel (q : IndexPriorityQueue T) (j v : Int) :
    setPositionOfSlot q j v ≠ .noFuel ∧
      ∀ s, setPositionOfSlot q j v = .ok s → s.size_ = q.size_ := by
  unfold setPositionOfSlot
  cases vecAt q.priorityQueue j with
  | none => simp
  | some x => exact setPosition_fuel q x v

theorem swapSlots_fuel (q : IndexPriorityQueue T) (a b : Int) :
    swapSlots q a b ≠ .noFuel ∧ ∀ s, swapSlots q a b = .ok s → s.size_ = q.size_ := by
  unfold swapSlots
  cases vecAt q.priorityQueue a with
  | none => simp
  | some x =>
    cases vecAt q.priorityQueue b with
    | none => simp
    | some y =>
      refine ⟨by simp, fun s hs => ?_⟩
      cases hs
      rfl

theorem parent_pos {i : Int} (h : parent i > 0) : 2 ≤ i ∧ parent i = i / 2 := by
  by_cases hi : 0 ≤ i
  · have e := parent_eq hi
    rw [e] at h
    exact ⟨by omega, e⟩
  · exfalso
    have e : parent i = -((-i) / 2) := by
      unfold parent
      rw [← Int.tdiv_eq_ediv (by omega) (by decide), ← Int.neg_tdiv, neg_neg]
    rw [e] at h
    omega

theorem swimAux_fuel (n : Nat) : ∀ (q : IndexPriorityQueue T) (i : Int), i.toNat < n →
    swimAux n q i ≠ .noFuel := by
  induction n with
  | zero =>
    intro q i h
    omega
  | succ n ih =>
    intro q i hn
    unfold swimAux
    simp only []
    split
    · rename_i hp
      obtain ⟨hp1, hp2⟩ := parent_pos hp
      split
      · split
        · refine Outcome.bind_ne_noFuel (swapSlots_fuel _ _ _).1 (fun s1 _ => ?_)
          refine Outcome.bind_ne_noFuel (setPositionOfSlot_fuel _ _ _).1 (fun s2 _ => ?_)
          refine Outcome.bind_ne_noFuel (setPositionOfSlot_fuel _ _ _).1 (fun s3 _ => ?_)
          exact ih s3 (parent i) (by omega)
        · simp
      · simp
    · simp

/-- The fuel of `swim` always suffices: the loop of `swim` terminates. -/
theorem swim_total (q : IndexPriorityQueue T) (i : Int) : swim q i ≠ .noFuel :=
  swimAux_fuel (i.toNat + 1) q i (by omega)

theorem sinkChoice_cases {q : IndexPriorityQueue T} {c s : Int}
    (h : sinkChoice q c = some s) :
    s = leftChild c ∨ (s = rightChild c ∧ rightChild c ≤ q.size_) := by
  unfold sinkChoice at h
  simp only [size] at h
  split at h
  · rename_i hr
    split at h
    · rename_i a b _ _
      by_cases hgt : a > b
      · rw [if_pos hgt] at h
        exact Or.inr ⟨(Option.some.inj h).symm, hr⟩
      · rw [if_neg hgt] at h
        exact Or.inl (Option.some.inj h).symm
    · exact absurd h (by simp)
  · exact Or.inl (Option.some.inj h).symm

theorem prioAt_nonneg {q : IndexPriorityQueue T} {j : Int} {a : T}
    (h : prioAt q j = some a) : 0 ≤ j := by
  by_contra hj
  have e : vecAt q.priorityQueue j = none := vecAt_eq_none (Or.inl (by omega))
  simp [prioAt, e] at h

theorem sinkAux_fuel (n : Nat) : ∀ (q : IndexPriorityQueue T) (c : Int), c < 2147483648 →
    (q.size_ + 1 - c).toNat < n → sinkAux n q c ≠ .noFuel := by
  induction n with
  | zero =>
    intro q c _ h
    omega
  | succ n ih =>
    intro q c hint hn
    unfold sinkAux
    simp only [size]
    split
    · rename_i hl
      split
      · simp
      · rename_i s hsc
        have hcs := sinkChoice_cases hsc
        split
        · rename_i a b ha hb'
          have hc0 := prioAt_nonneg ha
          have hs0 := prioAt_nonneg hb'
          split
          · simp
          · rename_i hle
            have hne : s ≠ c := by
              intro he
              rw [he, ha] at hb'
              exact hle (le_of_eq (Option.some.inj hb'))
            have hsm : c < 1073741824 := by
              by_contra hbig
              have e1 : leftChild c = 2 * c - 4294967296 := by
                unfold leftChild
                exact wrapInt_over (by omega) (by omega)
              have e2 : rightChild c = 2 * c + 1 - 4294967296 := by
                unfold rightChild
                exact wrapInt_over (by omega) (by omega)
              rcases hcs with h1 | ⟨h1, -⟩
              · omega
              · omega
            have e1 := leftChild_eq hc0 hsm
            have e2 := rightChild_eq hc0 hsm
            refine Outcome.bind_ne_noFuel (swapSlots_fuel _ _ _).1 (fun s1 f1 => ?_)
            refine Outcome.bind_ne_noFuel (setPositionOfSlot_fuel _ _ _).1 (fun s2 f2 => ?_)
            refine Outcome.bind_ne_noFuel (setPositionOfSlot_fuel _ _ _).1 (fun s3 f3 => ?_)
            have z1 := (swapSlots_fuel _ _ _).2 s1 f1
            have z2 := (setPositionOfSlot_fuel _ _ _).2 s2 f2
            have z3 := (setPositionOfSlot_fuel _ _ _).2 s3 f3
            refine ih s3 s ?_ ?_
            · rcases hcs with h1 | ⟨h1, -⟩
              · omega
              · omega
            · rcases hcs with h1 | ⟨h1, h2⟩
              · omega
              · omega
        · simp
    · simp

/-- The fuel of `sink` always suffices when the argument is an `int`: the loop of
`sink` terminates. -/
theorem sink_total (q : IndexPriorityQueue T) (i : Int) (hi : i < 2147483648) :
    sink q i ≠ .noFuel :=
  sinkAux_fuel ((q.size_ + 1 - i).toNat + 1) q i hi (by omega)

/-! ## The concrete run is reachable -/

theorem demo0_reachable : Reachable demo0 := Reachable.ctor 5 demo0 (by decide)

theorem demo1_reachable : Reachable demo1 :=
  Reachable.push demo0 demo1 10 0 demo0_reachable (by decide) (by decide) (by decide)

theorem demo2_reachable : Reachable demo2 :=
  Reachable.push demo1 demo2 3 1 demo1_reachable (by decide) (by decide) (by decide)

theorem demo3_reachable : Reachable demo3 :=
  Reachable.push demo2 demo3 7 2 demo2_reachable (by decide) (by decide) (by decide)

theorem demo4_reachable : Reachable demo4 :=
  Reachable.changeKey demo3 demo4 1 2 demo3_reachable (by decide)

theorem demo5_reachable : Reachable demo5 :=
  Reachable.pop demo4 demo5 demo4_reachable (by decide)

theorem demo3_reachableLog : ReachableLog demo3 demoLog3 :=
  ReachableLog.push demo2 demo3 _ 7 2
    (ReachableLog.push demo1 demo2 _ 3 1
      (ReachableLog.push demo0 demo1 _ 10 0 (ReachableLog.ctor 5 demo0 (by decide))
        (by decide) (by decide) (by decide))
      (by decide) (by decide) (by decide))
    (by decide) (by decide) (by decide)

/-! ## Congruence of the observers -/

theorem contains_congr {q q' : IndexPriorityQueue T} (hs : Shape q) (hs' : Shape q')
    (hcap : q'.maxSize_ = q.maxSize_) {x : Int} (h : posOf q' x = -1 ↔ posOf q x = -1) :
    contains q' x = contains q x := by
  rw [contains_eq hs', contains_eq hs, hcap, Option.some.injEq, decide_eq_decide, Ne, Ne, h]

theorem vecAt_priorities_congr {q q' : IndexPriorityQueue T} (hs : Shape q) (hs' : Shape q')
    (hcap : q'.maxSize_ = q.maxSize_) {x : Int} (h : prioOf q' x = prioOf q x) :
    vecAt q'.priorities x = vecAt q.priorities x := by
  have h1 := hs.lenP
  have h2 := hs'.lenP
  by_cases hx : 0 ≤ x ∧ x < q.maxSize_
  · rw [vecAt_prio q x hx.1 (by omega), vecAt_prio q' x hx.1 (by omega), h]
  · rw [vecAt_eq_none (by omega), vecAt_eq_none (by omega)]

theorem root_le_queued {q : IndexPriorityQueue T} (hi : Inv q) {x : Int} (h0 : 0 ≤ x)
    (h1 : x < q.maxSize_) (hq : posOf q x ≠ -1) : key q 1 ≤ prioOf q x := by
  obtain ⟨p0, p1, p2⟩ := hi.bij.pos x h0 h1 hq
  have h := root_le (posOf q x).toNat hi.heap (posOf q x) le_rfl p0 p1
  simp only [key] at h ⊢
  rw [p2] at h
  exact h

theorem size_pos_of_not_empty {q : IndexPriorityQueue T} (hi : Inv q)
    (hne : empty q = false) : 0 < q.size_ := by
  have hn := hi.bij.nonneg
  simp only [empty, beq_eq_false_iff_ne] at hne
  omega

/-! ## Draining the queue -/

/-- The occupied slots and the queued indices have the same number of elements. -/
theorem card_queued {q : IndexPriorityQueue T} (hi : Inv q) :
    ((Finset.Ico 0 q.maxSize_).filter (fun x => contains q x = some true)).card =
      q.size_.toNat := by
  have h := Finset.card_bij (s := Finset.Icc 1 q.size_)
    (t := (Finset.Ico 0 q.maxSize_).filter (fun x => contains q x = some true))
    (fun j _ => slotIdx q j)
    (by
      intro j hj
      rw [Finset.mem_Icc] at hj
      obtain ⟨s0, s1, s2⟩ := hi.bij.slot j hj.1 hj.2
      rw [Finset.mem_filter, Finset.mem_Ico, contains_true_iff hi.shape]
      exact ⟨⟨s0, s1⟩, s0, s1, by rw [s2]; omega⟩)
    (by
      intro a ha b hb hab
      rw [Finset.mem_Icc] at ha hb
      exact hi.bij.slot_inj ha.1 ha.2 hb.1 hb.2 hab)
    (by
      intro x hx
      rw [Finset.mem_filter, contains_true_iff hi.shape] at hx
      obtain ⟨p0, p1, p2⟩ := hi.bij.pos x hx.2.1 hx.2.2.1 hx.2.2.2
      exact ⟨posOf q x, by rw [Finset.mem_Icc]; exact ⟨p0, p1⟩, p2⟩)
  rw [← h, Int.card_Icc]
  congr 1
  omega

/-! ## From the views back to the observers -/

theorem observe_update {q q' : IndexPriorityQueue T} (hs : Shape q) (hs' : Shape q')
    (hcap : q'.maxSize_ = q.maxSize_) {idx : Int} (k : T) (h0 : 0 ≤ idx)
    (h1 : idx < q.maxSize_) (hq : posOf q' idx ≠ -1)
    (hp : ∀ x, prioOf q' x = if x = idx then k else prioOf q x)
    (ha : ∀ x, x ≠ idx → (posOf q' x = -1 ↔ posOf q x = -1)) :
    contains q' idx = some true ∧ vecAt q'.priorities idx = some k ∧
      ∀ x, x ≠ idx →
        contains q' x = contains q x ∧ vecAt q'.priorities x = vecAt q.priorities x := by
  have hlp := hs'.lenP
  refine ⟨(contains_true_iff hs' idx).2 ⟨h0, by omega, hq⟩, ?_, fun x hx => ⟨?_, ?_⟩⟩
  · rw [vecAt_prio q' idx h0 (by omega), hp, if_pos rfl]
  · exact contains_congr hs hs' hcap (ha x hx)
  · exact vecAt_priorities_congr hs hs' hcap (by rw [hp, if_neg hx])

theorem demo3_shape : Shape demo3 := ⟨by decide, by decide, by decide, by decide⟩

/-! ## The invariant read through the bounds-checked accessors -/

theorem Outcome.bind_assoc {σ : Type} (o : Outcome σ) (f g : σ → Outcome σ) :
    (o.bind f).bind g = o.bind fun s => (f s).bind g := by
  cases o <;> rfl

theorem Outcome.ok_bind {σ : Type} (s : σ) (f : σ → Outcome σ) :
    (Outcome.ok s).bind f = f s := rfl

/-- The member `erase` is its first half followed by its second half. -/
theorem erase_split {q : IndexPriorityQueue T} {idx i : Int}
    (hc : contains q idx = some true) (hv : vecAt q.indexToPosition idx = some i) :
    erase q idx = (eraseMid q i).bind fun q4 => eraseRest q4 i idx := by
  unfold erase eraseMid eraseRest
  rw [hc]
  simp only []
  rw [hv]
  simp only [Outcome.bind_assoc, Outcome.ok_bind]

theorem eraseMid_eq {q : IndexPriorityQueue T} (hi : Inv q) {i : Int} (hi0 : 1 ≤ i)
    (hi1 : i ≤ q.size_) :
    eraseMid q i = .ok (withSize (swapped q i q.size_) (q.size_ - 1)) := by
  unfold eraseMid
  rw [swap_exec_size hi.shape hi.bij i hi0 hi1 (by omega) le_rfl]
  rfl

/-- What `erase` hands to `swim` and `sink`: heap order can only fail around `i`. -/
theorem eraseMid_facts {q : IndexPriorityQueue T} (hi : Inv q) {i : Int} (hi0 : 1 ≤ i)
    (hi1 : i ≤ q.size_) :
    Shape (withSize (swapped q i q.size_) (q.size_ - 1)) ∧
    Bij (withSize (swapped q i q.size_) (q.size_ - 1)) q.size_ ∧
    (∀ j, 1 < j → j ≤ q.size_ - 1 → j ≠ i → j / 2 ≠ i →
      key (withSize (swapped q i q.size_) (q.size_ - 1)) (j / 2) ≤
        key (withSize (swapped q i q.size_) (q.size_ - 1)) j) ∧
    (∀ c, 1 < i → c ≤ q.size_ - 1 → c / 2 = i →
      key (withSize (swapped q i q.size_) (q.size_ - 1)) (i / 2) ≤
        key (withSize (swapped q i q.size_) (q.size_ - 1)) c) ∧
    (i = q.size_ → 1 < i →
      key (withSize (swapped q i q.size_) (q.size_ - 1)) (i / 2) ≤
        key (withSize (swapped q i q.size_) (q.size_ - 1)) i) := by
  have hs := hi.shape
  have hb := hi.bij
  have hk := key_swapped hs hb i q.size_ hi0 hi1 (by omega) le_rfl
  have hb3 := hb.keep_swap hs i q.size_ hi0 hi1 (by omega) le_rfl
  have hk4 : ∀ k, key (withSize (swapped q i q.size_) (q.size_ - 1)) k =
      if k = q.size_ then key q i else if k = i then key q q.size_ else key q k := hk
  have ek4 : ∀ k, k ≠ q.size_ → k ≠ i →
      key (withSize (swapped q i q.size_) (q.size_ - 1)) k = key q k :=
    fun k g1 g2 => by rw [hk4, if_neg g1, if_neg g2]
  refine ⟨(hs.keep_swapped _ _).keep_withSize _, hb3.keep_size _, ?_, ?_, ?_⟩
  · intro j hj0 hj1 hj2 hj3
    rw [ek4 j (by omega) hj2, ek4 (j / 2) (by omega) hj3]
    exact hi.heap j hj0 (by omega)
  · intro c hc0 hc1 hc2
    rw [ek4 c (by omega) (by omega), ek4 (i / 2) (by omega) (by omega)]
    have g1 := hi.heap c (by omega) (by omega)
    rw [hc2] at g1
    exact le_trans (hi.heap i hc0 hi1) g1
  · intro him hgt
    rw [hk4 i, if_pos him, ek4 (i / 2) (by omega) (by omega)]
    exact hi.heap i hgt hi1

/-- On a heap-ordered object the loop of `sink` stops at once. -/
theorem sinkAux_noop (n : Nat) {q : IndexPriorityQueue T} {m : Int} (hs : Shape q)
    (hb : Bij q m) (hsz : q.size_ ≤ m) {i : Int} (hi0 : 1 ≤ i) (hsm : i < 1073741824)
    (ho : HeapOrd q) :
    sinkAux (n + 1) q i = .ok q := by
  have hlq := hs.lenQ
  have hlp := hs.lenP
  have hcap := hb.le_cap
  unfold sinkAux
  simp only [leftChild_eq (show 0 ≤ i by omega) hsm, size]
  by_cases h2 : 2 * i ≤ q.size_
  · rw [if_pos h2]
    obtain ⟨s, hsc, hs0, hs1, -⟩ := sinkChoice_spec hs hb hsz hi0 h2 hsm
    rw [hsc]
    simp only []
    obtain ⟨si0, si1, -⟩ := hb.slot i hi0 (by omega)
    obtain ⟨ss0, ss1, -⟩ := hb.slot s (by omega) (by omega)
    rw [prioAt_ok q i (by omega) (by omega) si0 (by omega),
      prioAt_ok q s (by omega) (by omega) ss0 (by omega)]
    simp only []
    have hle := ho s (by omega) hs1
    rw [show s / 2 = i by omega] at hle
    rw [if_pos hle]
  · rw [if_neg h2]

/-- In the `swim(i); sink(i)` pair of `erase` at least one call is a no-op. -/
theorem erase_fix_steps {q : IndexPriorityQueue T} {m i : Int} (hs : Shape q) (hb : Bij q m)
    (hsz : q.size_ + 1 = m) (hi0 : 1 ≤ i) (hi1 : i ≤ m) (hcap : q.maxSize_ < 1073741824)
    (hA1 : ∀ j, 1 < j → j ≤ q.size_ → j ≠ i → j / 2 ≠ i → key q (j / 2) ≤ key q j)
    (hA2 : ∀ c, 1 < i → c ≤ q.size_ → c / 2 = i → key q (i / 2) ≤ key q c)
    (hA3 : i = m → 1 < i → key q (i / 2) ≤ key q i) :
    ∃ q5 q6, swim q i = .ok q5 ∧ sink q5 i = .ok q6 ∧ (q5 = q ∨ q6 = q5) := by
  by_cases hcase : 1 < i ∧ i ≤ q.size_ ∧ key q i < key q (i / 2)
  · obtain ⟨c1, c2, c3⟩ := hcase
    have hu : UpOK q i := by
      refine ⟨fun j hj0 hj1 hj2 => ?_, hA2⟩
      by_cases hc : j / 2 = i
      · rw [hc]
        exact le_trans (le_of_lt c3) (hA2 j c1 hj1 hc)
      · exact hA1 j hj0 hj1 hj2 hc
    obtain ⟨q5, e1, e2, e3, e4, e5, -⟩ := swimAux_spec (i.toNat + 1) q i m hs hb
      (by omega) hi0 c2 hu (by omega)
    refine ⟨q5, q5, e1, ?_, Or.inr rfl⟩
    unfold sink
    have hle := hb.le_cap
    exact sinkAux_noop _ e2 e3 (by rw [e4.size_eq]; omega) hi0 (by omega) e5
  · have hst : swimAux (i.toNat + 1) q i = .ok q := by
      refine swimAux_stop i.toNat q i m hs hb hi0 hi1 (fun h1 => ?_)
      by_cases him : i = m
      · exact hA3 him h1
      · by_contra hlt
        exact hcase ⟨h1, by omega, lt_of_not_le hlt⟩
    have hd : DownOK q i := by
      refine ⟨fun j hj0 hj1 hj2 => ?_, hA2⟩
      by_cases hji : j = i
      · subst hji
        by_contra hlt
        exact hcase ⟨hj0, hj1, lt_of_not_le hlt⟩
      · exact hA1 j hj0 hj1 hji hj2
    obtain ⟨q6, f1, -⟩ := sinkAux_spec ((q.size_ + 1 - i).toNat + 1) q i m
      hs hb (by omega) (by omega) hi0 hi1 hcap hd (by omega)
    exact ⟨q, q6, hst, f1, Or.inl rfl⟩

theorem demo5_not_exactly_one : ¬ ExactlyOneWorks demoMid 2 := by
  rintro ⟨q5, q6, h1, h2, h3⟩
  have e1 : swim demoMid 2 = .ok demoMid := by decide
  rw [e1] at h1
  cases h1
  have e2 : sink demoMid 2 = .ok demoMid := by decide
  rw [e2] at h2
  cases h2
  rcases h3 with h3 | h3
  · exact h3.1 rfl
  · exact h3.2 rfl

/-! ## Erasing the index in the last slot -/

theorem Outcome.All_bind {σ : Type} {P : σ → Prop} {o : Outcome σ} {f : σ → Outcome σ}
    (h1 : o.All P) (h2 : ∀ s, P s → (f s).All P) : (o.bind f).All P := by
  cases o with
  | ok s => exact h2 s h1
  | outOfRange s => exact h1
  | noFuel => trivial

theorem Outcome.All_of_leaves {σ : Type} {P : σ → Prop} {o : Outcome σ} {s : σ}
    (h1 : o.All P) (h2 : o.leaves s) : P s := by
  rcases h2 with h2 | h2
  · rw [h2] at h1
    exact h1
  · rw [h2] at h1
    exact h1

theorem vecSet_length {α : Type} {v w : List α} {i : Int} {x : α}
    (h : vecSet v i x = some w) : w.length = v.length := by
  unfold vecSet at h
  split at h
  · cases h
    exact List.length_set _ _ _
  · exact absurd h (by simp)

theorem setSlot_shape {q : IndexPriorityQueue T} (hs : Shape q) (j x : Int) :
    (setSlot q j x).All Shape := by
  unfold setSlot
  split
  · rename_i v hv
    exact ⟨hs.cap, hs.lenP, by rw [vecSet_length hv]; exact hs.lenQ, hs.lenI⟩
  · exact hs

theorem setPosition_shape {q : IndexPriorityQueue T} (hs : Shape q) (x v : Int) :
    (setPosition q x v).All Shape := by
  unfold setPosition
  split
  · rename_i w hw
    exact ⟨hs.cap, hs.lenP, hs.lenQ, by rw [vecSet_length hw]; exact hs.lenI⟩
  · exact hs

theorem setPriority_shape {q : IndexPriorityQueue T} (hs : Shape q) (x : Int) (p : T) :
    (setPriority q x p).All Shape := by
  unfold setPriority
  split
  · rename_i w hw
    exact ⟨hs.cap, by rw [vecSet_length hw]; exact hs.lenP, hs.lenQ, hs.lenI⟩
  · exact hs

theorem setPositionOfSlot_shape {q : IndexPriorityQueue T} (hs : Shape q) (j v : Int) :
    (setPositionOfSlot q j v).All Shape := by
  unfold setPositionOfSlot
  split
  · exact setPosition_shape hs _ _
  · exact hs

theorem swapSlots_shape {q : IndexPriorityQueue T} (hs : Shape q) (a b : Int) :
    (swapSlots q a b).All Shape := by
  unfold swapSlots
  split
  · exact ⟨hs.cap, hs.lenP, by
      simp only [List.length_set]
      exact hs.lenQ, hs.lenI⟩
  · exact hs

theorem swimAux_shape (n : Nat) : ∀ (q : IndexPriorityQueue T) (i : Int), Shape q →
    (swimAux n q i).All Shape := by
  induction n with
  | zero =>
    intro q i _
    trivial
  | succ n ih =>
    intro q i hs
    unfold swimAux
    simp only []
    split
    · split
      · split
        · exact Outcome.All_bind (swapSlots_shape hs _ _) fun s1 h1 =>
            Outcome.All_bind (setPositionOfSlot_shape h1 _ _) fun s2 h2 =>
            Outcome.All_bind (setPositionOfSlot_shape h2 _ _) fun s3 h3 => ih s3 _ h3
        · exact hs
      · exact hs
    · exact hs

theorem sinkAux_shape (n : Nat) : ∀ (q : IndexPriorityQueue T) (i : Int), Shape q →
    (sinkAux n q i).All Shape := by
  induction n with
  | zero =>
    intro q i _
    trivial
  | succ n ih =>
    intro q i hs
    unfold sinkAux
    split
    · split
      · exact hs
      · split
        · split
          · exact hs
          · exact Outcome.All_bind (swapSlots_shape hs _ _) fun s1 h1 =>
              Outcome.All_bind (setPositionOfSlot_shape h1 _ _) fun s2 h2 =>
              Outcome.All_bind (setPositionOfSlot_shape h2 _ _) fun s3 h3 => ih s3 _ h3
        · exact hs
    · exact hs

theorem push_shape {q : IndexPriorityQueue T} (hs : Shape q) (p : T) (idx : Int) :
    (push q p idx).All Shape := by
  unfold push
  split
  · exact hs
  · exact hs
  · exact Outcome.All_bind (setPriority_shape (hs.keep_withSize _) _ _) fun s1 h1 =>
      Outcome.All_bind (setSlot_shape h1 _ _) fun s2 h2 =>
      Outcome.All_bind (setPosition_shape h2 _ _) fun s3 h3 => swimAux_shape _ s3 _ h3

theorem pop_shape {q : IndexPriorityQueue T} (hs : Shape q) : (pop q).All Shape := by
  unfold pop
  split
  · exact hs
  · exact Outcome.All_bind (swapSlots_shape hs _ _) fun s1 h1 =>
      Outcome.All_bind (setPositionOfSlot_shape h1 _ _) fun s2 h2 =>
      Outcome.All_bind (setPositionOfSlot_shape h2 _ _) fun s3 h3 =>
      Outcome.All_bind (sinkAux_shape _ _ _ (h3.keep_withSize _)) fun s5 h5 =>
      Outcome.All_bind (setPositionOfSlot_shape h5 _ _) fun s6 h6 => setSlot_shape h6 _ _

theorem erase_shape {q : IndexPriorityQueue T} (hs : Shape q) (idx : Int) :
    (erase q idx).All Shape := by
  unfold erase
  split
  · exact hs
  · exact hs
  · split
    · exact hs
    · exact Outcome.All_bind (swapSlots_shape hs _ _) fun s1 h1 =>
        Outcome.All_bind (setPositionOfSlot_shape h1 _ _) fun s2 h2 =>
        Outcome.All_bind (setPositionOfSlot_shape h2 _ _) fun s3 h3 =>
        Outcome.All_bind (swimAux_shape _ _ _ (h3.keep_withSize _)) fun s5 h5 =>
        Outcome.All_bind (sinkAux_shape _ _ _ h5) fun s6 h6 =>
        Outcome.All_bind (setSlot_shape h6 _ _) fun s7 h7 => setPosition_shape h7 _ _

theorem changeKey_shape {q : IndexPriorityQueue T} (hs : Shape q) (k : T) (idx : Int) :
    (changeKey q k idx).All Shape := by
  unfold changeKey
  split
  · exact hs
  · split
    · exact hs
    · exact Outcome.All_bind (erase_shape hs _) fun s1 h1 => push_shape h1 _ _
    · exact push_shape hs _ _

/-- Every state an object can be in, also after calls that threw, has vectors of
the sizes the constructor gave them. -/
theorem Attainable.shape {q : IndexPriorityQueue T} (h : Attainable q) : Shape q := by
  induction h with
  | ctor N q hc => exact (ctor_spec hc).1.shape
  | push q q' p idx _ hl ih => exact Outcome.All_of_leaves (push_shape ih p idx) hl
  | pop q q' _ hl ih => exact Outcome.All_of_leaves (pop_shape ih) hl
  | erase q q' idx _ hl ih => exact Outcome.All_of_leaves (erase_shape ih idx) hl
  | changeKey q q' k idx _ hl ih => exact Outcome.All_of_leaves (changeKey_shape ih k idx) hl

/-! ## Facts about the concrete run -/

end Lemmas

/-! ## The claims -/

section Claims

set_option linter.unusedSectionVars false

variable {T : Type} [LinearOrder T] [Inhabited T]

/-- C1: in every reachable non-empty queue, `top()` returns a pair `(p, idx)` where
`idx` is queued, `p` is the priority most recently assigned to `idx`, and `p` is at
most the current priority of every queued index. -/
theorem C1_top_is_minimum (q : IndexPriorityQueue T) (g : Int → Option T)
    (h : ReachableLog q g) (hne : empty q = false) :
    ∃ p idx, top q = some (p, idx) ∧ contains q idx = some true ∧ g idx = some p ∧
      ∀ j, contains q j = some true →
        ∃ pj, g j = some pj ∧ vecAt q.priorities j = some pj ∧ p ≤ pj := by
  have hi := h.reachable.inv
  have hpos := size_pos_of_not_empty hi hne
  have hlp := hi.shape.lenP
  obtain ⟨s0, s1, s2⟩ := hi.bij.slot 1 le_rfl (by omega)
  have hq1 : posOf q (slotIdx q 1) ≠ -1 := by
    rw [s2]
    omega
  refine ⟨key q 1, slotIdx q 1, top_eq hi hpos,
    (contains_true_iff hi.shape _).2 ⟨s0, s1, hq1⟩, h.log _ s0 s1 hq1, fun j hj => ?_⟩
  obtain ⟨j0, j1, j2⟩ := (contains_true_iff hi.shape j).1 hj
  exact ⟨prioOf q j, h.log j j0 j1 j2, vecAt_prio q j j0 (by omega), root_le_queued hi j0 j1 j2⟩

/-- Witness for C1 on the queue holding indices 0, 1, 2 with priorities 10, 3, 7. -/
theorem C1_top_is_minimum_witness :
    ReachableLog demo3 demoLog3 ∧ empty demo3 = false ∧
    ∃ p idx, top demo3 = some (p, idx) ∧ contains demo3 idx = some true ∧
      demoLog3 idx = some p ∧
      ∀ j, contains demo3 j = some true →
        ∃ pj, demoLog3 j = some pj ∧ vecAt demo3.priorities j = some pj ∧ p ≤ pj :=
  ⟨demo3_reachableLog, by decide,
    C1_top_is_minimum demo3 demoLog3 demo3_reachableLog (by decide)⟩

/-- C3: min-heap order is an invariant of the reachable states: for every slot `i`
with `1 < i ≤ size()`, the priority at slot `i` is at least the priority at its
parent slot. -/
theorem C3_heap_order (q : IndexPriorityQueue T) (h : Reachable q) (i : Int)
    (h1 : 1 < i) (h2 : i ≤ size q) :
    ∃ a b, prioAt q (parent i) = some a ∧ prioAt q i = some b ∧ a ≤ b := by
  have hi := h.inv
  have h2' : i ≤ q.size_ := h2
  have hlq := hi.shape.lenQ
  have hlp := hi.shape.lenP
  have hcap := hi.bij.le_cap
  obtain ⟨s0, s1, -⟩ := hi.bij.slot i (by omega) h2'
  obtain ⟨t0, t1, -⟩ := hi.bij.slot (i / 2) (by omega) (by omega)
  rw [parent_eq (by omega)]
  exact ⟨key q (i / 2), key q i,
    prioAt_ok q (i / 2) (by omega) (by omega) t0 (by omega),
    prioAt_ok q i (by omega) (by omega) s0 (by omega), hi.heap i h1 h2'⟩

/-- Witness for C3 at slot 3 of the three-element queue. -/
theorem C3_heap_order_witness :
    Reachable demo3 ∧ (1 : Int) < 3 ∧ (3 : Int) ≤ size demo3 ∧
    ∃ a b, prioAt demo3 (parent 3) = some a ∧ prioAt demo3 3 = some b ∧ a ≤ b :=
  ⟨demo3_reachable, by decide, by decide,
    C3_heap_order demo3 demo3_reachable 3 (by decide) (by decide)⟩

/-- C5: the concrete scenario on a queue of capacity 5: after `push(10,0)`,
`push(3,1)`, `push(7,2)` the top is `(3,1)`; after `changeKey(1,2)` the top is
`(1,2)`; `pop()` removes index 2 and the top is `(3,1)`; after `erase(0)` one more
`pop()` removes index 1 and the queue is empty. -/
theorem C5_scenario :
    ctor 5 = some demo0 ∧ push demo0 10 0 = .ok demo1 ∧ push demo1 3 1 = .ok demo2 ∧
    push demo2 7 2 = .ok demo3 ∧ top demo3 = some (3, 1) ∧
    changeKey demo3 1 2 = .ok demo4 ∧ top demo4 = some (1, 2) ∧
    contains demo4 2 = some true ∧ pop demo4 = .ok demo5 ∧ contains demo5 2 = some false ∧
    top demo5 = some (3, 1) ∧ erase demo5 0 = .ok demo6 ∧
    contains demo6 1 = some true ∧ pop demo6 = .ok demo7 ∧ contains demo7 1 = some false ∧
    empty demo7 = true := by
  decide

/-- C4: in every reachable queue the heap array and the position map are mutual
inverses: slots `1..size()` hold pairwise distinct indices of `[0, capacity)`, an
index is contained iff it occurs in those slots, a contained index sits at the slot
its position entry names, `size()` is the number of contained indices and
`size() ≤ capacity`. -/
theorem C4_bijection (q : IndexPriorityQueue T) (h : Reachable q) :
    (∀ j, 1 ≤ j → j ≤ size q →
      ∃ idx, vecAt q.priorityQueue j = some idx ∧ 0 ≤ idx ∧ idx < q.maxSize_) ∧
    (∀ j k idx, 1 ≤ j → j ≤ size q → 1 ≤ k → k ≤ size q →
      vecAt q.priorityQueue j = some idx → vecAt q.priorityQueue k = some idx → j = k) ∧
    (∀ idx, contains q idx = some true ↔
      ∃ j, 1 ≤ j ∧ j ≤ size q ∧ vecAt q.priorityQueue j = some idx) ∧
    (∀ idx, contains q idx = some true →
      ∃ pos, vecAt q.indexToPosition idx = some pos ∧ 1 ≤ pos ∧ pos ≤ size q ∧
        vecAt q.priorityQueue pos = some idx) ∧
    ((Finset.Ico 0 q.maxSize_).filter (fun x => contains q x = some true)).card =
      (size q).toNat ∧
    0 ≤ size q ∧ size q ≤ q.maxSize_ := by
  have hi := h.inv
  have hs := hi.shape
  have hb := hi.bij
  have hlq := hs.lenQ
  have hli := hs.lenI
  have hcap := hb.le_cap
  have hsl : ∀ j, 1 ≤ j → j ≤ q.size_ → vecAt q.priorityQueue j = some (slotIdx q j) :=
    fun j hj0 hj1 => vecAt_slot q j (by omega) (by omega)
  refine ⟨fun j hj0 hj1 => ?_, fun j k idx hj0 hj1 hk0 hk1 hj hk => ?_, fun idx => ⟨fun hc => ?_,
    fun hc => ?_⟩, fun idx hc => ?_, card_queued hi, hb.nonneg, hcap⟩
  · obtain ⟨s0, s1, -⟩ := hb.slot j hj0 hj1
    exact ⟨slotIdx q j, hsl j hj0 hj1, s0, s1⟩
  · rw [hsl j hj0 hj1] at hj
    rw [hsl k hk0 hk1] at hk
    exact hb.slot_inj hj0 hj1 hk0 hk1
      ((Option.some.inj hj).trans (Option.some.inj hk).symm)
  · obtain ⟨c0, c1, c2⟩ := (contains_true_iff hs idx).1 hc
    obtain ⟨p0, p1, p2⟩ := hb.pos idx c0 c1 c2
    exact ⟨posOf q idx, p0, p1, by rw [hsl _ p0 p1, p2]⟩
  · obtain ⟨j, hj0, hj1, hj⟩ := hc
    obtain ⟨s0, s1, s2⟩ := hb.slot j hj0 hj1
    rw [hsl j hj0 hj1] at hj
    rw [← Option.some.inj hj]
    exact (contains_true_iff hs _).2 ⟨s0, s1, by rw [s2]; omega⟩
  · obtain ⟨c0, c1, c2⟩ := (contains_true_iff hs idx).1 hc
    obtain ⟨p0, p1, p2⟩ := hb.pos idx c0 c1 c2
    exact ⟨posOf q idx, vecAt_pos q idx c0 (by omega), p0, p1, by rw [hsl _ p0 p1, p2]⟩

/-- Witness for C4 on the queue after `changeKey(1, 2)`. -/
theorem C4_bijection_witness :
    Reachable demo4 ∧
    ((∀ j, 1 ≤ j → j ≤ size demo4 →
      ∃ idx, vecAt demo4.priorityQueue j = some idx ∧ 0 ≤ idx ∧ idx < demo4.maxSize_) ∧
    (∀ j k idx, 1 ≤ j → j ≤ size demo4 → 1 ≤ k → k ≤ size demo4 →
      vecAt demo4.priorityQueue j = some idx → vecAt demo4.priorityQueue k = some idx →
      j = k) ∧
    (∀ idx, contains demo4 idx = some true ↔
      ∃ j, 1 ≤ j ∧ j ≤ size demo4 ∧ vecAt demo4.priorityQueue j = some idx) ∧
    (∀ idx, contains demo4 idx = some true →
      ∃ pos, vecAt demo4.indexToPosition idx = some pos ∧ 1 ≤ pos ∧ pos ≤ size demo4 ∧
        vecAt demo4.priorityQueue pos = some idx) ∧
    ((Finset.Ico 0 demo4.maxSize_).filter (fun x => contains demo4 x = some true)).card =
      (size demo4).toNat ∧
    0 ≤ size demo4 ∧ size demo4 ≤ demo4.maxSize_) :=
  ⟨demo4_reachable, C4_bijection demo4 demo4_reachable⟩

/-- C6: in every reachable queue, `push(p, idx)` of an in-range index that is not
queued returns normally, makes `contains(idx)` true with priority `p` recorded for
`idx`, increases `size()` by exactly 1, and leaves the queued status and the
priority of every other index unchanged. -/
theorem C6_push_effect (q : IndexPriorityQueue T) (h : Reachable q) (p : T) (idx : Int)
    (h0 : 0 ≤ idx) (h1 : idx < q.maxSize_) (hab : contains q idx = some false) :
    ∃ q', push q p idx = .ok q' ∧ contains q' idx = some true ∧
      vecAt q'.priorities idx = some p ∧ size q' = size q + 1 ∧
      ∀ x, x ≠ idx →
        contains q' x = contains q x ∧ vecAt q'.priorities x = vecAt q.priorities x := by
  have hi := h.inv
  have hpos : posOf q idx = -1 := by
    by_contra hne
    exact (contains_false_iff hi.shape idx).1 hab ⟨h0, h1, hne⟩
  obtain ⟨q', e1, e2, e3, e4, e5, e6, e7⟩ := push_spec hi p h0 h1 hpos
  obtain ⟨o1, o2, o3⟩ := observe_update hi.shape e2.shape e4 p h0 h1 e5 e6 e7
  exact ⟨q', e1, o1, o2, e3, o3⟩

/-- Witness for C6: `push(7, 2)` on the queue holding indices 0 and 1. -/
theorem C6_push_effect_witness :
    Reachable demo2 ∧ (0 : Int) ≤ 2 ∧ (2 : Int) < demo2.maxSize_ ∧
    contains demo2 2 = some false ∧
    ∃ q', push demo2 7 2 = .ok q' ∧ contains q' 2 = some true ∧
      vecAt q'.priorities 2 = some 7 ∧ size q' = size demo2 + 1 ∧
      ∀ x, x ≠ 2 →
        contains q' x = contains demo2 x ∧
        vecAt q'.priorities x = vecAt demo2.priorities x :=
  ⟨demo2_reachable, by decide, by decide, by decide,
    C6_push_effect demo2 demo2_reachable 7 2 (by decide) (by decide) (by decide)⟩

/-- C10: in every reachable queue, `changeKey(k, idx)` on an in-range index that is
not queued yields the same outcome as `push(k, idx)`: it returns normally,
`contains(idx)` becomes true and `idx` is queued with priority `k`. -/
theorem C10_changeKey_absent (q : IndexPriorityQueue T) (h : Reachable q) (k : T) (idx : Int)
    (h0 : 0 ≤ idx) (h1 : idx < q.maxSize_) (hab : contains q idx = some false) :
    changeKey q k idx = push q k idx ∧
    ∃ q', changeKey q k idx = .ok q' ∧ contains q' idx = some true ∧
      vecAt q'.priorities idx = some k := by
  have hi := h.inv
  have hpos : posOf q idx = -1 := by
    by_contra hne
    exact (contains_false_iff hi.shape idx).1 hab ⟨h0, h1, hne⟩
  obtain ⟨q', e1, e2, e3, e4, e5, e6, e7⟩ := push_spec hi k h0 h1 hpos
  obtain ⟨o1, o2, -⟩ := observe_update hi.shape e2.shape e4 k h0 h1 e5 e6 e7
  exact ⟨changeKey_absent k h0 h1 hab, q', by rw [changeKey_absent k h0 h1 hab]; exact e1,
    o1, o2⟩

/-- Witness for C10: `changeKey(5, 4)` on the three-element queue. -/
theorem C10_changeKey_absent_witness :
    Reachable demo3 ∧ (0 : Int) ≤ 4 ∧ (4 : Int) < demo3.maxSize_ ∧
    contains demo3 4 = some false ∧
    (changeKey demo3 5 4 = push demo3 5 4 ∧
    ∃ q', changeKey demo3 5 4 = .ok q' ∧ contains q' 4 = some true ∧
      vecAt q'.priorities 4 = some 5) :=
  ⟨demo3_reachable, by decide, by decide, by decide,
    C10_changeKey_absent demo3 demo3_reachable 5 4 (by decide) (by decide) (by decide)⟩

/-- C12: a duplicate push is a no-op: in every queue state, `push(p, idx)` of an
index with `contains(idx)` true returns normally and leaves the whole object
(priorities, heap array, position map and size) unchanged; the stored priority of
`idx` is not replaced by `p`. -/
theorem C12_duplicate_push (q : IndexPriorityQueue T) (p : T) (idx : Int)
    (hq : contains q idx = some true) :
    push q p idx = .ok q := by
  unfold push
  rw [hq]

/-- Witness for C12: `push(99, 1)` on the three-element queue, where index 1 keeps
priority 3. -/
theorem C12_duplicate_push_witness :
    contains demo3 1 = some true ∧ push demo3 99 1 = .ok demo3 ∧
    vecAt demo3.priorities 1 = some 3 :=
  ⟨by decide, C12_duplicate_push demo3 99 1 (by decide), by decide⟩

/-- C14: in every queue state with `size() == 0`, `pop()` returns normally and
leaves the whole object unchanged, and `top()` returns the pair of the default
priority `T{}` and index 0 without failing. -/
theorem C14_empty_access (q : IndexPriorityQueue T) (hz : size q = 0) :
    pop q = .ok q ∧ top q = some (default, 0) := by
  have hz' : q.size_ = 0 := hz
  constructor
  · unfold pop
    simp [empty, hz']
  · unfold top
    simp [empty, hz']

/-- Witness for C14 on the freshly constructed queue. -/
theorem C14_empty_access_witness :
    size demo0 = 0 ∧ pop demo0 = .ok demo0 ∧ top demo0 = some (default, 0) :=
  ⟨by decide, C14_empty_access demo0 (by decide)⟩

/-- C15: guarded no-ops: in every queue state, every index outside `[0, capacity)`
is reported as not contained and `changeKey(k, idx)` on it returns normally with
the object unchanged; `erase(idx)` of any index that is not contained returns
normally with the object unchanged. -/
theorem C15_guarded_noops (q : IndexPriorityQueue T) (k : T) (idx : Int) :
    ((idx < 0 ∨ idx ≥ q.maxSize_) →
      contains q idx = some false ∧ erase q idx = .ok q ∧ changeKey q k idx = .ok q) ∧
    (contains q idx = some false → erase q idx = .ok q) := by
  have he : contains q idx = some false → erase q idx = .ok q := by
    intro hc
    unfold erase
    rw [hc]
  refine ⟨fun hr => ?_, he⟩
  have hc : contains q idx = some false := by
    unfold contains
    rw [if_pos hr]
  refine ⟨hc, he hc, ?_⟩
  unfold changeKey
  rw [if_pos hr]

/-- Witness for C15: indices 9 and 4 on the three-element queue of capacity 5. -/
theorem C15_guarded_noops_witness :
    ((9 : Int) < 0 ∨ (9 : Int) ≥ demo3.maxSize_) ∧ contains demo3 4 = some false ∧
    (contains demo3 9 = some false ∧ erase demo3 9 = .ok demo3 ∧
      changeKey demo3 8 9 = .ok demo3) ∧
    erase demo3 4 = .ok demo3 :=
  ⟨by decide, by decide, (C15_guarded_noops demo3 8 9).1 (by decide),
    (C15_guarded_noops demo3 8 4).2 (by decide)⟩

/-- C13: in every queue state (the vectors sized as the constructor sized them) and
for every integer `idx`, `contains(idx)` does not fail; it returns false when `idx`
is outside `[0, capacity)`, and otherwise it returns true iff
`indexToPosition[idx]` is not the sentinel `-1`. -/
theorem C13_contains_total (q : IndexPriorityQueue T) (hs : Shape q) (idx : Int) :
    (∃ b, contains q idx = some b) ∧
    ((idx < 0 ∨ idx ≥ q.maxSize_) → contains q idx = some false) ∧
    (0 ≤ idx → idx < q.maxSize_ →
      ∃ pos, vecAt q.indexToPosition idx = some pos ∧
        (contains q idx = some true ↔ pos ≠ -1) ∧
        (contains q idx = some false ↔ pos = -1)) := by
  have hli := hs.lenI
  refine ⟨⟨_, contains_eq hs idx⟩, fun hr => ?_, fun h0 h1 => ?_⟩
  · unfold contains
    rw [if_pos hr]
  · refine ⟨posOf q idx, vecAt_pos q idx h0 (by omega), ?_, ?_⟩
    · rw [contains_true_iff hs]
      exact ⟨fun h => h.2.2, fun h => ⟨h0, h1, h⟩⟩
    · rw [contains_false_iff hs]
      exact ⟨fun h => by
        by_contra hne
        exact h ⟨h0, h1, hne⟩, fun h hc => hc.2.2 h⟩

/-- Witness for C13 at index 2 of the three-element queue. -/
theorem C13_contains_total_witness :
    Shape demo3 ∧
    ((∃ b, contains demo3 2 = some b) ∧
    (((2 : Int) < 0 ∨ (2 : Int) ≥ demo3.maxSize_) → contains demo3 2 = some false) ∧
    ((0 : Int) ≤ 2 → (2 : Int) < demo3.maxSize_ →
      ∃ pos, vecAt demo3.indexToPosition 2 = some pos ∧
        (contains demo3 2 = some true ↔ pos ≠ -1) ∧
        (contains demo3 2 = some false ↔ pos = -1))) :=
  ⟨demo3_shape, C13_contains_total demo3 demo3_shape 2⟩

/-- C20: a failing push is not atomic: `push(10, 7)` on the freshly constructed
queue of capacity 5 throws the bounds error after `size_` has been incremented, so
at the point of failure `size()` is 1 and `empty()` is false, where both were 0 and
true before the call; the object left behind answers `top()` with index 0, which
it does not contain. -/
theorem C20_failed_push_changes_size :
    ctor 5 = some demo0 ∧ ((7 : Int) < 0 ∨ (7 : Int) ≥ demo0.maxSize_) ∧
    push demo0 10 7 = .outOfRange demoFailed ∧ demoFailed ≠ demo0 ∧
    size demo0 = 0 ∧ size demoFailed = 1 ∧ empty demo0 = true ∧ empty demoFailed = false ∧
    top demoFailed = some (0, 0) ∧ contains demoFailed 0 = some false := by
  decide

/-- C18 as stated fails: `erase(0)` on the reachable queue `demo5` finds index 0
in the last slot; after the swap and the decrement neither `swim(2)` nor `sink(2)`
changes the heap array, so it is not the case that exactly one of them performs
work. -/
theorem C18_counterexample :
    Reachable demo5 ∧ contains demo5 0 = some true ∧
    vecAt demo5.indexToPosition 0 = some 2 ∧ eraseMid demo5 2 = .ok demoMid ∧
    swim demoMid 2 = .ok demoMid ∧ sink demoMid 2 = .ok demoMid ∧
    ¬ ExactlyOneWorks demoMid 2 :=
  ⟨demo5_reachable, by decide, by decide, by decide, by decide, by decide,
    demo5_not_exactly_one⟩

/-- C18, amended: in `erase(idx)` of a queued index at slot `i` of a reachable
queue of capacity below `2^30` (where the `int` products of `sink` do not
overflow), after the swap with the last slot and the decrement of the size, both
`swim(i)` and `sink(i)` return normally and at least one of them is a no-op: they
never both perform work. -/
theorem C18_at_most_one_works (q : IndexPriorityQueue T) (h : Reachable q)
    (hcap : q.maxSize_ < 1073741824) (idx : Int) (hq : contains q idx = some true) :
    ∃ i q4 q5 q6, vecAt q.indexToPosition idx = some i ∧ eraseMid q i = .ok q4 ∧
      erase q idx = eraseRest q4 i idx ∧
      swim q4 i = .ok q5 ∧ sink q5 i = .ok q6 ∧ (q5 = q4 ∨ q6 = q5) := by
  have hi := h.inv
  have hli := hi.shape.lenI
  obtain ⟨c0, c1, c2⟩ := (contains_true_iff hi.shape idx).1 hq
  obtain ⟨p0, p1, p2⟩ := hi.bij.pos idx c0 c1 c2
  have hv := vecAt_pos q idx c0 (by omega)
  have hm := eraseMid_eq hi p0 p1
  obtain ⟨f1, f2, f3, f4, f5⟩ := eraseMid_facts hi p0 p1
  obtain ⟨q5, q6, g1, g2, g3⟩ := erase_fix_steps f1 f2
    (by show q.size_ - 1 + 1 = q.size_; omega) p0 p1 hcap f3 f4 f5
  refine ⟨posOf q idx, _, q5, q6, hv, hm, ?_, g1, g2, g3⟩
  rw [erase_split hq hv, hm]
  rfl

/-- Witness for C18, amended: `erase(1)` on the three-element queue, where the root
is erased. -/
theorem C18_at_most_one_works_witness :
    Reachable demo3 ∧ demo3.maxSize_ < 1073741824 ∧ contains demo3 1 = some true ∧
    ∃ i q4 q5 q6, vecAt demo3.indexToPosition 1 = some i ∧ eraseMid demo3 i = .ok q4 ∧
      erase demo3 1 = eraseRest q4 i 1 ∧
      swim q4 i = .ok q5 ∧ sink q5 i = .ok q6 ∧ (q5 = q4 ∨ q6 = q5) :=
  ⟨demo3_reachable, by decide, by decide,
    C18_at_most_one_works demo3 demo3_reachable (by decide) 1 (by decide)⟩

end Claims

end IndexPQ
